import Mathlib

/-!
Verification of the arbitrage-bot core: pool pricing, rate-graph construction,
Bellman-Ford negative-cycle detection, and the polling monitors.

The development shallowly embeds the two Python variants of the engine:
- `ArbBot`  : src/arbitrage_bot/arbitrage_bot.py
- `DiscBot` : src/arbitrage_bot/arb/arbitrage_discovery_bot.py

Modelling conventions:
- token and pool addresses are strings;
- floating-point quantities (reserves, prices) are modelled as exact rationals;
  edge weights are generic over a linear ordered field `F`, with the source's
  weight function `fun p => -Real.log p` recovered by instantiating the
  `negLog : Rat → F` parameter at `F := Real`;
- every chain (web3) call goes through an explicit `Provider` record whose
  operations either return a value or fail with `Fault.badCall` (the
  `BadFunctionCallOutput` or `ContractLogicError` exceptions, which the code
  catches) or `Fault.transport` (any other exception, which the code does not
  catch locally);
- the unbounded `while True` monitor loops are run for an explicit number of
  ticks, with one `Provider` per tick standing for the state of the external
  chain during that tick;
- the cycle-collection `while True` loop is given explicit fuel; running out
  of fuel (`none`) models divergence of the source loop.
-/

abbrev Token := String

/-- A chain call outcome: `badCall` models `BadFunctionCallOutput` /
`ContractLogicError` (caught by the pool-refresh code), `transport` any other
exception (uncaught until, at most, the discovery monitor loop). -/
inductive Fault where
  | badCall
  | transport
deriving DecidableEq

/-- One chain-provider invocation, recorded so theorems can speak about which
calls a refresh performs. -/
inductive Call where
  | token0 (pair : String)
  | token1 (pair : String)
  | symbol (tok : Token)
  | decimals (tok : Token)
  | getReserves (pair : String)
deriving DecidableEq

/-- The injected chain-data provider: one snapshot of the external world.
`poolAddresses` is the pool-address list served to the discovery monitor's
per-tick `load_pool_addresses()`. -/
structure Provider where
  token0 : String → Except Fault Token
  token1 : String → Except Fault Token
  symbol : Token → Except Fault String
  decimals : Token → Except Fault Nat
  getReserves : String → Except Fault (Int × Int × Int)
  poolAddresses : List String

/-- A directed rate-graph edge `(u, v, w, pool)` with weight type `F` and
backing-pool type `P`. -/
structure Edge (F : Type) (P : Type) where
  u : Token
  v : Token
  w : F
  pool : P
deriving DecidableEq

/-- Python `set.add` on a set modelled as a duplicate-free list in insertion
order. -/
def insertNode (nodes : List Token) (t : Token) : List Token :=
  if t ∈ nodes then nodes else nodes ++ [t]

/-- Python `set.add` for the monitors' seen-cycle sets. -/
def addSeen (seen : List String) (k : String) : List String :=
  if k ∈ seen then seen else seen ++ [k]

namespace ArbBot

/-- Pool wrapper of arbitrage_bot.py: token identity and metadata are resolved
lazily; reserves are human-unit quantities; `is_valid_pair` is cleared
permanently on a failed contract call. -/
structure Pool where
  address : String
  token0 : Option Token := none
  token1 : Option Token := none
  token0_decimals : Option Nat := none
  token1_decimals : Option Nat := none
  token0_symbol : Option String := none
  token1_symbol : Option String := none
  reserve0 : Rat := 0
  reserve1 : Rat := 0
  is_valid_pair : Bool := true
deriving DecidableEq

/-- Fresh pool from an externally supplied address (the `Pool.__init__`). -/
def mkPool (addr : String) : Pool := { address := addr }

/-- arbitrage_bot.py `fetch_token_info`: fetches symbol then decimals, letting
any fault propagate (this variant has no per-field handler). Returns the
result together with the chain calls made. -/
def fetch_token_info (prov : Provider) (token_address : Token) :
    Except Fault (String × Nat) × List Call :=
  match prov.symbol token_address with
  | .error f => (.error f, [.symbol token_address])
  | .ok s =>
    match prov.decimals token_address with
    | .error f => (.error f, [.symbol token_address, .decimals token_address])
    | .ok d => (.ok (s, d), [.symbol token_address, .decimals token_address])

/-- arbitrage_bot.py `Pool.update_tokens_and_reserves`.  Returns the new pool
state (or a propagating `transport` fault) together with the chain calls made.
`badCall` faults are caught here and permanently invalidate the pool; a pool
that is already invalid returns immediately, making no call. -/
def Pool.update_tokens_and_reserves (prov : Provider) (p : Pool) :
    Except Fault Pool × List Call :=
  if p.is_valid_pair = false then (.ok p, [])
  else
    -- first try-block: resolve token identity (one-time)
    let step1 : Except Fault Pool × List Call :=
      match p.token0 with
      | some _ => (.ok p, [])
      | none =>
        match prov.token0 p.address with
        | .error f => (.error f, [.token0 p.address])
        | .ok t0 =>
          match prov.token1 p.address with
          | .error f => (.error f, [.token0 p.address, .token1 p.address])
          | .ok t1 =>
            let cs0 := [Call.token0 p.address, Call.token1 p.address]
            match fetch_token_info prov t0 with
            | (.error f, cs) => (.error f, cs0 ++ cs)
            | (.ok i0, cs) =>
              match fetch_token_info prov t1 with
              | (.error f, cs') => (.error f, cs0 ++ cs ++ cs')
              | (.ok i1, cs') =>
                (.ok { p with
                        token0 := some t0, token1 := some t1,
                        token0_decimals := some i0.2, token1_decimals := some i1.2,
                        token0_symbol := some i0.1, token1_symbol := some i1.1 },
                 cs0 ++ cs ++ cs')
    match step1 with
    | (.error .transport, cs) => (.error .transport, cs)
    | (.error .badCall, cs) =>
      -- except BadFunctionCallOutput: invalidate and return (reserves skipped)
      (.ok { p with is_valid_pair := false }, cs)
    | (.ok p1, cs) =>
      -- second try-block: fetch reserves and scale by decimals
      match prov.getReserves p.address with
      | .error .transport => (.error .transport, cs ++ [.getReserves p.address])
      | .error .badCall =>
        (.ok { p1 with is_valid_pair := false }, cs ++ [.getReserves p.address])
      | .ok (r0, r1, _) =>
        match p1.token0_decimals, p1.token1_decimals with
        | some d0, some d1 =>
          (.ok { p1 with reserve0 := (r0 : Rat) / 10 ^ d0,
                         reserve1 := (r1 : Rat) / 10 ^ d1 },
           cs ++ [.getReserves p.address])
        | _, _ =>
          -- in the source a missing decimals here would raise an uncaught
          -- TypeError; unreachable for pools produced by this function
          (.error .transport, cs ++ [.getReserves p.address])

/-- arbitrage_bot.py `Pool.price_token0_to_token1`: 0 guards a zero reserve,
otherwise the fee-adjusted price with the 0.997 multiplier. -/
def Pool.price_token0_to_token1 (p : Pool) : Rat :=
  if p.reserve0 = 0 then 0 else p.reserve1 / p.reserve0 * (997 / 1000)

/-- arbitrage_bot.py `Pool.price_token1_to_token0`. -/
def Pool.price_token1_to_token0 (p : Pool) : Rat :=
  if p.reserve1 = 0 then 0 else p.reserve0 / p.reserve1 * (997 / 1000)

/-- Result of one graph build: the refreshed pools (the source mutates them in
place), the node set, the edge list, and the chain calls made. -/
structure BuildOut (F P : Type) where
  pools : List P
  nodes : List Token
  edges : List (Edge F P)
  calls : List Call
deriving DecidableEq

/-- Loop body of `build_rate_graph` for one pool: refresh it, skip it if it is
(or becomes) invalid, otherwise add its tokens as nodes and one edge per
strictly positive direction, weighted by `negLog` of the fee-adjusted price
(`fun p => -Real.log p` in the source). -/
def build_fold {F P : Type} (negLog : Rat → F) (toP : Pool → P) (prov : Provider)
    (acc : Except Fault (BuildOut F P)) (pool : Pool) :
    Except Fault (BuildOut F P) :=
  match acc with
  | .error f => .error f
  | .ok b =>
    match Pool.update_tokens_and_reserves prov pool with
    | (.error f, _) => .error f
    | (.ok p, cs) =>
      if p.is_valid_pair = false then
        .ok { b with pools := b.pools ++ [toP p], calls := b.calls ++ cs }
      else
        -- in the source the tokens of a surviving pool are always resolved;
        -- Python would otherwise use None as a node key
        let t0 := p.token0.getD ""
        let t1 := p.token1.getD ""
        let ns := insertNode (insertNode b.nodes t0) t1
        let p01 := p.price_token0_to_token1
        let p10 := p.price_token1_to_token0
        let es1 := if 0 < p01 then b.edges ++ [⟨t0, t1, negLog p01, toP p⟩] else b.edges
        let es2 := if 0 < p10 then es1 ++ [⟨t1, t0, negLog p10, toP p⟩] else es1
        .ok { pools := b.pools ++ [toP p], nodes := ns, edges := es2,
              calls := b.calls ++ cs }

/-- arbitrage_bot.py `build_rate_graph`: refresh every pool in order and
assemble the node set and edge list.  A `transport` fault aborts the build
(in the source it propagates out of the enclosing tick). -/
def build_rate_graph {F : Type} (negLog : Rat → F) (prov : Provider)
    (pools : List Pool) : Except Fault (BuildOut F Pool) :=
  List.foldl (build_fold negLog id prov) (.ok ⟨[], [], [], []⟩) pools

end ArbBot

namespace DiscBot

/-- Pool object of arbitrage_discovery_bot.py: like the other variant but
with best-effort metadata (symbol/decimals may stay unknown on a valid pool)
and validity flag `is_valid`. -/
structure Pool where
  address : String
  token0 : Option Token := none
  token1 : Option Token := none
  token0_symbol : Option String := none
  token1_symbol : Option String := none
  token0_decimals : Option Nat := none
  token1_decimals : Option Nat := none
  reserve0 : Rat := 0
  reserve1 : Rat := 0
  is_valid : Bool := true
deriving DecidableEq

/-- Fresh pool from an address (`Pool.__init__`). -/
def mkPool (addr : String) : Pool := { address := addr }

/-- arbitrage_discovery_bot.py `fetch_token_info`: each metadata field is
fetched under its own handler, so a `badCall` yields `none` for that field
while a `transport` fault still propagates. -/
def fetch_token_info (prov : Provider) (addr : Token) :
    Except Fault (Option String × Option Nat) × List Call :=
  match prov.symbol addr with
  | .error .transport => (.error .transport, [.symbol addr])
  | .error .badCall =>
    match prov.decimals addr with
    | .error .transport => (.error .transport, [.symbol addr, .decimals addr])
    | .error .badCall => (.ok (none, none), [.symbol addr, .decimals addr])
    | .ok d => (.ok (none, some d), [.symbol addr, .decimals addr])
  | .ok s =>
    match prov.decimals addr with
    | .error .transport => (.error .transport, [.symbol addr, .decimals addr])
    | .error .badCall => (.ok (some s, none), [.symbol addr, .decimals addr])
    | .ok d => (.ok (some s, some d), [.symbol addr, .decimals addr])

/-- Python truthiness scaling of a raw reserve: `if decimals: r /= 10**decimals`
(both a missing and a zero decimals count leave the raw value unscaled). -/
def scaleReserve (d : Option Nat) (r : Int) : Rat :=
  match d with
  | some dd => if dd = 0 then (r : Rat) else (r : Rat) / 10 ^ dd
  | none => (r : Rat)

/-- arbitrage_discovery_bot.py `Pool.update`: resolve identity once (a
`badCall` there permanently invalidates the pool and skips the reserve fetch),
then fetch and scale reserves (a `badCall` there also invalidates). -/
def Pool.update (prov : Provider) (p : Pool) : Except Fault Pool × List Call :=
  if p.is_valid = false then (.ok p, [])
  else
    let step1 : Except Fault Pool × List Call :=
      match p.token0 with
      | some _ => (.ok p, [])
      | none =>
        match prov.token0 p.address with
        | .error f => (.error f, [.token0 p.address])
        | .ok t0 =>
          match prov.token1 p.address with
          | .error f => (.error f, [.token0 p.address, .token1 p.address])
          | .ok t1 =>
            let cs0 := [Call.token0 p.address, Call.token1 p.address]
            match fetch_token_info prov t0 with
            | (.error f, cs) => (.error f, cs0 ++ cs)
            | (.ok i0, cs) =>
              match fetch_token_info prov t1 with
              | (.error f, cs') => (.error f, cs0 ++ cs ++ cs')
              | (.ok i1, cs') =>
                (.ok { p with
                        token0 := some t0, token1 := some t1,
                        token0_symbol := i0.1, token0_decimals := i0.2,
                        token1_symbol := i1.1, token1_decimals := i1.2 },
                 cs0 ++ cs ++ cs')
    match step1 with
    | (.error .transport, cs) => (.error .transport, cs)
    | (.error .badCall, cs) => (.ok { p with is_valid := false }, cs)
    | (.ok p1, cs) =>
      match prov.getReserves p.address with
      | .error .transport => (.error .transport, cs ++ [.getReserves p.address])
      | .error .badCall =>
        (.ok { p1 with is_valid := false }, cs ++ [.getReserves p.address])
      | .ok (r0, r1, _) =>
        (.ok { p1 with reserve0 := scaleReserve p1.token0_decimals r0,
                       reserve1 := scaleReserve p1.token1_decimals r1 },
         cs ++ [.getReserves p.address])

/-- arbitrage_discovery_bot.py `Pool.price0_to_1`. -/
def Pool.price0_to_1 (p : Pool) : Rat :=
  if p.reserve0 = 0 then 0 else p.reserve1 / p.reserve0 * (997 / 1000)

/-- arbitrage_discovery_bot.py `Pool.price1_to_0`. -/
def Pool.price1_to_0 (p : Pool) : Rat :=
  if p.reserve1 = 0 then 0 else p.reserve0 / p.reserve1 * (997 / 1000)

/-- Loop body of `build_graph` for one pool (same shape as the other
variant's). -/
def build_fold {F : Type} (negLog : Rat → F) (prov : Provider)
    (acc : Except Fault (ArbBot.BuildOut F Pool)) (pool : Pool) :
    Except Fault (ArbBot.BuildOut F Pool) :=
  match acc with
  | .error f => .error f
  | .ok b =>
    match Pool.update prov pool with
    | (.error f, _) => .error f
    | (.ok p, cs) =>
      if p.is_valid = false then
        .ok { b with pools := b.pools ++ [p], calls := b.calls ++ cs }
      else
        let t0 := p.token0.getD ""
        let t1 := p.token1.getD ""
        let ns := insertNode (insertNode b.nodes t0) t1
        let p01 := p.price0_to_1
        let p10 := p.price1_to_0
        let es1 := if 0 < p01 then b.edges ++ [⟨t0, t1, negLog p01, p⟩] else b.edges
        let es2 := if 0 < p10 then es1 ++ [⟨t1, t0, negLog p10, p⟩] else es1
        .ok { pools := b.pools ++ [p], nodes := ns, edges := es2,
              calls := b.calls ++ cs }

/-- arbitrage_discovery_bot.py `build_graph`. -/
def build_graph {F : Type} (negLog : Rat → F) (prov : Provider)
    (pools : List Pool) : Except Fault (ArbBot.BuildOut F Pool) :=
  List.foldl (build_fold negLog prov) (.ok ⟨[], [], [], []⟩) pools

end DiscBot

namespace BF

/-- Bellman-Ford working state: `dist` and `parent` arrays indexed by node
index, `parent[v] = some (u, pool)` after a relaxation of an edge `u -> v`
backed by `pool`. -/
structure State (F P : Type) where
  dist : List F
  parent : List (Option (Nat × P))
deriving DecidableEq

/-- Initial state: all distances 0 (the implicit virtual source), no
predecessors. -/
def init (F P : Type) [Zero F] (n : Nat) : State F P :=
  ⟨List.replicate n 0, List.replicate n none⟩

/-- One relaxation attempt of one edge:
`if dist[u] + w < dist[v]: dist[v] = dist[u] + w; parent[v] = (u, pool)`.
The boolean reports whether the edge relaxed. -/
def relaxEdge {F P : Type} [LinearOrderedAddCommGroup F] (idx : Token → Nat)
    (st : State F P) (e : Edge F P) : State F P × Bool :=
  let ui := idx e.u
  let vi := idx e.v
  if st.dist.getD ui 0 + e.w < st.dist.getD vi 0 then
    (⟨st.dist.set vi (st.dist.getD ui 0 + e.w),
      st.parent.set vi (some (ui, e.pool))⟩, true)
  else (st, false)

/-- One pass over the whole edge list, accumulating the updated flag
(arbitrage_bot.py tracks it; the discovery variant simply ignores it). -/
def pass {F P : Type} [LinearOrderedAddCommGroup F] (idx : Token → Nat)
    (edges : List (Edge F P)) (st : State F P) : State F P × Bool :=
  List.foldl (fun acc e =>
    let r := relaxEdge idx acc.1 e
    (r.1, acc.2 || r.2)) (st, false) edges

/-- arbitrage_bot.py relaxation loop: up to `k` passes, stopping early after
the first pass that relaxed nothing.  Also returns the number of passes
executed (instrumentation only — it does not influence the state). -/
def relaxLoopEarly {F P : Type} [LinearOrderedAddCommGroup F] (idx : Token → Nat)
    (edges : List (Edge F P)) : Nat → State F P → State F P × Nat
  | 0, st => (st, 0)
  | k + 1, st =>
    let r := pass idx edges st
    if r.2 then
      let s := relaxLoopEarly idx edges k r.1
      (s.1, s.2 + 1)
    else (r.1, 1)

/-- arbitrage_discovery_bot.py relaxation loop: exactly `k` passes. -/
def relaxLoop {F P : Type} [LinearOrderedAddCommGroup F] (idx : Token → Nat)
    (edges : List (Edge F P)) (k : Nat) (st : State F P) : State F P :=
  List.foldl (fun s _ => (pass idx edges s).1) st (List.range k)

/-- The verification scan: the first edge that still relaxes, if any. -/
def findRelaxable {F P : Type} [LinearOrderedAddCommGroup F] (idx : Token → Nat)
    (edges : List (Edge F P)) (st : State F P) : Option (Edge F P) :=
  edges.find? fun e =>
    decide (st.dist.getD (idx e.u) 0 + e.w < st.dist.getD (idx e.v) 0)

/-- arbitrage_bot.py backward pre-walk: follow `parent` for `k` steps,
stopping early (at the current node) on a missing predecessor. -/
def backWalk {P : Type} (parent : List (Option (Nat × P))) :
    Nat → Nat → Nat
  | 0, s => s
  | k + 1, s =>
    match parent.getD s none with
    | none => s
    | some pr => backWalk parent k pr.1

/-- arbitrage_discovery_bot.py backward pre-walk `vi = parent[vi][0]`, `k`
times: a missing predecessor is an uncaught TypeError in the source, modelled
as `none`. -/
def backWalkStrict {P : Type} (parent : List (Option (Nat × P))) :
    Nat → Nat → Option Nat
  | 0, s => some s
  | k + 1, s =>
    match parent.getD s none with
    | none => none
    | some pr => backWalkStrict parent k pr.1

/-- The cycle-collection loop, common to both variants: walk `parent` from
`start`, recording `(token, pool)` pairs, until the walk revisits `start` or
meets a missing predecessor; then append `start`'s token and reverse both
accumulators.  `fuel` bounds the unbounded source loop; `none` models its
divergence. -/
def collect {P : Type} (parent : List (Option (Nat × P))) (tok : Nat → Token)
    (start : Nat) : Nat → Nat → List Token → List P →
    Option (List Token × List P)
  | 0, _, _, _ => none
  | fuel + 1, cur, ts, ps =>
    match parent.getD cur none with
    | none => some ((ts ++ [tok start]).reverse, ps.reverse)
    | some pr =>
      let ts' := ts ++ [tok cur]
      let ps' := ps ++ [pr.2]
      if pr.1 = start then some ((ts' ++ [tok start]).reverse, ps'.reverse)
      else collect parent tok start fuel pr.1 ts' ps'

end BF

namespace ArbBot

/-- arbitrage_bot.py `find_negative_cycle`: index the nodes, run at most
`|nodes| - 1` relaxation passes (with the early exit), scan for a still
relaxable edge; on success walk `|nodes|` predecessor steps back from its head
and collect the cycle from there.  `none` models divergence of the collection
loop (its fuel `|nodes| + 1` is shown sufficient under the wellformedness
hypotheses of the theorems below). -/
def find_negative_cycle {F P : Type} [LinearOrderedAddCommGroup F]
    (nodes : List Token) (edges : List (Edge F P)) :
    Option (List Token × List P) :=
  let N := nodes.length
  let idx := fun t => nodes.indexOf t
  let tok := fun i => nodes.getD i ""
  let st := (BF.relaxLoopEarly idx edges (N - 1) (BF.init F P N)).1
  match BF.findRelaxable idx edges st with
  | none => some ([], [])
  | some e =>
    let start := BF.backWalk st.parent N (idx e.v)
    BF.collect st.parent tok start (N + 1) start [] []

/-- Number of relaxation passes arbitrage_bot.py's detector executes on a
graph (the early exit can make it smaller than `|nodes| - 1`). -/
def find_negative_cycle_passes {F P : Type} [LinearOrderedAddCommGroup F]
    (nodes : List Token) (edges : List (Edge F P)) : Nat :=
  let N := nodes.length
  let idx := fun t => nodes.indexOf t
  (BF.relaxLoopEarly idx edges (N - 1) (BF.init F P N)).2

end ArbBot

namespace DiscBot

/-- arbitrage_discovery_bot.py `find_negative_cycle`: exactly `|nodes| - 1`
relaxation passes, verification scan, strict backward pre-walk (`none` models
the uncaught TypeError on a missing predecessor), then the collection loop. -/
def find_negative_cycle {F P : Type} [LinearOrderedAddCommGroup F]
    (nodes : List Token) (edges : List (Edge F P)) :
    Option (List Token × List P) :=
  let N := nodes.length
  let idx := fun t => nodes.indexOf t
  let tok := fun i => nodes.getD i ""
  let st := BF.relaxLoop idx edges (N - 1) (BF.init F P N)
  match BF.findRelaxable idx edges st with
  | none => some ([], [])
  | some e =>
    match BF.backWalkStrict st.parent N (idx e.v) with
    | none => none
    | some vi => BF.collect st.parent tok vi (N + 1) vi [] []

end DiscBot

namespace BF

/-- One full relaxation pass with the updated-flag dropped (the two source
loops differ only in whether they consult it; this is the common state
transformer). -/
def passS {F P : Type} [LinearOrderedAddCommGroup F] (idx : Token → Nat)
    (edges : List (Edge F P)) (st : State F P) : State F P :=
  List.foldl (fun s e => (relaxEdge idx s e).1) st edges

/-- `k` relaxation passes. -/
def passIter {F P : Type} [LinearOrderedAddCommGroup F] (idx : Token → Nat)
    (edges : List (Edge F P)) : Nat → State F P → State F P
  | 0, st => st
  | k + 1, st => passS idx edges (passIter idx edges k st)

/-- A walk in the graph given by the edge list `es`: `Walk es s t l` says the
edges `l`, taken in order, lead from token `s` to token `t`. -/
inductive Walk {F P : Type} (es : List (Edge F P)) : Token → Token → List (Edge F P) → Prop where
  | nil (t : Token) : Walk es t t []
  | cons (e : Edge F P) (he : e ∈ es) {t : Token} {l : List (Edge F P)}
      (h : Walk es e.v t l) : Walk es e.u t (e :: l)

/-- Total weight of a list of edges. -/
def weight {F P : Type} [LinearOrderedAddCommGroup F]
    (l : List (Edge F P)) : F :=
  (l.map fun e => e.w).sum

/-- The graph has no negative cycle: every closed walk has nonnegative
weight (the spec's glossary sense of a negative cycle, negated). -/
def NoNegCycle {F P : Type} [LinearOrderedAddCommGroup F]
    (es : List (Edge F P)) : Prop :=
  ∀ (t : Token) (l : List (Edge F P)), Walk es t t l → 0 ≤ weight l

/-- Every edge endpoint belongs to the node list (what the graph builder
guarantees, and what the source assumes when it indexes `dist` by token). -/
def Wellformed {F P : Type} (nodes : List Token) (es : List (Edge F P)) : Prop :=
  ∀ e ∈ es, e.u ∈ nodes ∧ e.v ∈ nodes

/-- Everything the relaxation phase guarantees about its state: array sizes,
every distance is the weight of an actual walk, and every predecessor entry
comes from a real edge whose relaxation inequality still holds. -/
def GoodState {F P : Type} [LinearOrderedAddCommGroup F]
    (nodes : List Token) (edges : List (Edge F P)) (st : State F P) : Prop :=
  st.dist.length = nodes.length ∧
  st.parent.length = nodes.length ∧
  (∀ t ∈ nodes, ∃ s l, s ∈ nodes ∧ Walk edges s t l ∧
    weight l = st.dist.getD (nodes.indexOf t) 0) ∧
  (∀ vi ui pl, st.parent.getD vi none = some (ui, pl) →
    ui < nodes.length ∧ ∃ e ∈ edges, nodes.indexOf e.u = ui ∧
      nodes.indexOf e.v = vi ∧ e.pool = pl ∧
      st.dist.getD ui 0 + e.w ≤ st.dist.getD vi 0)

end BF

/-- An opportunity event as emitted by the monitors: the cycle signature and
the reported gain. -/
structure Event (F : Type) where
  key : String
  gain : F
deriving DecidableEq

/-- Observable outcome of one completed monitor tick: the graph that was
built, the chain calls made, the detector's finding (`cycleKey`, recorded for
the theorems about deduplication), and the opportunity events emitted. -/
structure TickOut (F P : Type) where
  nodes : List Token
  edges : List (Edge F P)
  calls : List Call
  cycleKey : Option String
  events : List (Event F)
deriving DecidableEq

/-- Result of one monitor tick: completed, aborted by an exception escaping
the tick body, or hung (the cycle-collection loop diverging). -/
inductive TickRes (F P : Type) where
  | ok (out : TickOut F P)
  | exc
  | stuck
deriving DecidableEq

/-- The monitors' reported gain:
`math.exp(-next(w for u, v, w, _ in edges if u == cyc[0] and v == cyc[1]))`,
i.e. `expNeg` (`fun w => Real.exp (-w)` in the source) of the weight of the
first edge whose endpoints match the first two cycle tokens.  `none` models
the uncaught StopIteration / IndexError when no such edge or token exists. -/
def cycle_gain {F P : Type} (expNeg : F → F) (edges : List (Edge F P))
    (cyc : List Token) : Option F :=
  match cyc with
  | t0 :: t1 :: _ =>
    match edges.find? (fun e => e.u == t0 && e.v == t1) with
    | some e => some (expNeg e.w)
    | none => none
  | _ => none

namespace ArbBot

/-- One tick of arbitrage_bot.py `monitor_arbitrage`: rebuild the graph from
the persistent pool objects, run the detector, and report a found cycle if
its signature is new.  There is no exception handler here: `.exc` terminates
the surrounding loop. -/
def monitor_tick {F : Type} [LinearOrderedAddCommGroup F] (negLog : Rat → F)
    (expNeg : F → F) (prov : Provider) (pools : List Pool)
    (seen : List String) : List Pool × List String × TickRes F Pool :=
  match build_rate_graph negLog prov pools with
  | .error _ => (pools, seen, .exc)
  | .ok b =>
    match find_negative_cycle b.nodes b.edges with
    | none => (b.pools, seen, .stuck)
    | some (cyc, _) =>
      match cyc with
      | [] => (b.pools, seen, .ok ⟨b.nodes, b.edges, b.calls, none, []⟩)
      | t :: ts =>
        let key := String.intercalate " → " (t :: ts)
        if key ∈ seen then
          (b.pools, seen, .ok ⟨b.nodes, b.edges, b.calls, some key, []⟩)
        else
          let seen' := addSeen seen key
          match cycle_gain expNeg b.edges (t :: ts) with
          | none => (b.pools, seen', .exc)
          | some g =>
            (b.pools, seen', .ok ⟨b.nodes, b.edges, b.calls, some key, [⟨key, g⟩]⟩)

/-- arbitrage_bot.py `monitor_arbitrage`, run for `n` ticks with `provs t` the
external chain during tick `t`: pool objects and the seen-set persist across
ticks, and the first uncaught exception (or hang) ends the loop — the
returned trace then stops short.  Sleeping between ticks is not modelled. -/
def monitor_arbitrage {F : Type} [LinearOrderedAddCommGroup F] (negLog : Rat → F)
    (expNeg : F → F) (provs : Nat → Provider) :
    Nat → List Pool → List String → List (TickOut F Pool)
  | 0, _, _ => []
  | n + 1, pools, seen =>
    match monitor_tick negLog expNeg (provs 0) pools seen with
    | (_, _, .exc) => []
    | (_, _, .stuck) => []
    | (pools', seen', .ok out) =>
      out :: monitor_arbitrage negLog expNeg (fun k => provs (k + 1)) n pools' seen'

end ArbBot

namespace DiscBot

/-- One tick of arbitrage_discovery_bot.py `monitor`: load the address list,
build fresh `Pool` objects for it, build the graph, detect, deduplicate
(unless `verbose`, the `LOG_ARBITRAGE` flag) and report.  The seen-set is
returned even when the tick aborts, because `seen.add` happens before the
gain computation in the source.  A detector result of `none` is this
variant's `parent[vi][0]` dereference of `None` — a TypeError, i.e. an
exception escaping the tick body (`.exc`), not a hang: the collection loop
terminates whenever the backward pre-walk that precedes it succeeds. -/
def monitor_tick {F : Type} [LinearOrderedAddCommGroup F] (negLog : Rat → F)
    (expNeg : F → F) (verbose : Bool) (prov : Provider)
    (seen : List String) : List String × TickRes F Pool :=
  let pools := prov.poolAddresses.map mkPool
  match build_graph negLog prov pools with
  | .error _ => (seen, .exc)
  | .ok b =>
    match find_negative_cycle b.nodes b.edges with
    | none => (seen, .exc)
    | some (cyc, _) =>
      match cyc with
      | [] => (seen, .ok ⟨b.nodes, b.edges, b.calls, none, []⟩)
      | t :: ts =>
        let key := String.intercalate "→" (t :: ts)
        if key ∉ seen ∨ verbose = true then
          let seen' := addSeen seen key
          match cycle_gain expNeg b.edges (t :: ts) with
          | none => (seen', .exc)
          | some g =>
            (seen', .ok ⟨b.nodes, b.edges, b.calls, some key, [⟨key, g⟩]⟩)
        else (seen, .ok ⟨b.nodes, b.edges, b.calls, some key, []⟩)

/-- arbitrage_discovery_bot.py `monitor`, run for `n` ticks: the whole tick
body is inside `try ... except Exception`, so every exception (`.exc`,
including the extraction TypeError) is logged and the loop continues with the
next tick.  Only a genuinely diverging tick body (`.stuck`) would end the
trace — and the discovery tick never produces one (its every branch yields
`.ok` or `.exc`), so an `n`-tick run always yields `n` results. -/
def monitor {F : Type} [LinearOrderedAddCommGroup F] (negLog : Rat → F)
    (expNeg : F → F) (verbose : Bool) (provs : Nat → Provider) :
    Nat → List String → List (TickRes F Pool)
  | 0, _ => []
  | n + 1, seen =>
    match monitor_tick negLog expNeg verbose (provs 0) seen with
    | (_, .stuck) => [.stuck]
    | (seen', .exc) =>
      .exc :: monitor negLog expNeg verbose (fun k => provs (k + 1)) n seen'
    | (seen', .ok out) =>
      .ok out :: monitor negLog expNeg verbose (fun k => provs (k + 1)) n seen'

end DiscBot

namespace ArbBot

/-- The weight function of the source, `-math.log p`. -/
noncomputable def negLogR : Rat → Real := fun q => -Real.log (q : Real)

/-- The gain map of the source, `math.exp (-w)`. -/
noncomputable def expNegR : Real → Real := fun w => Real.exp (-w)

/-- `build_rate_graph` at the source's real-valued weight function. -/
noncomputable def build_rate_graphR (prov : Provider) (pools : List Pool) :
    Except Fault (BuildOut Real Pool) :=
  build_rate_graph negLogR prov pools

end ArbBot

/-- Decidable equality for `Except`, so concrete pool refreshes and builds can
be evaluated by `decide` in witnesses. -/
instance exceptDecEq {e a : Type} [DecidableEq e] [DecidableEq a] :
    DecidableEq (Except e a)
  | .error x, .error y =>
    if h : x = y then .isTrue (by rw [h]) else
      .isFalse (fun c => by cases c; exact h rfl)
  | .error _, .ok _ => .isFalse (fun c => by cases c)
  | .ok _, .error _ => .isFalse (fun c => by cases c)
  | .ok x, .ok y =>
    if h : x = y then .isTrue (by rw [h]) else
      .isFalse (fun c => by cases c; exact h rfl)

/-- Concrete provider for the zero-reserve scenario: reserves `(0, 100)`,
every other call failing. -/
def provC : Provider :=
  { token0 := fun _ => .error .badCall, token1 := fun _ => .error .badCall,
    symbol := fun _ => .error .badCall, decimals := fun _ => .error .badCall,
    getReserves := fun _ => .ok (0, 100, 0), poolAddresses := [] }

/-- A pool whose token identity is already resolved, before a reserve
refresh. -/
def poolC : ArbBot.Pool :=
  { address := "P", token0 := some "A", token1 := some "B",
    token0_decimals := some 0, token1_decimals := some 0,
    token0_symbol := some "a", token1_symbol := some "b" }

/-- The same pool after refreshing against `provC` (reserves written exactly
as the refresh computes them). -/
def poolCr : ArbBot.Pool :=
  { address := "P", token0 := some "A", token1 := some "B",
    token0_decimals := some 0, token1_decimals := some 0,
    token0_symbol := some "a", token1_symbol := some "b",
    reserve0 := ((0 : Int) : Rat) / 10 ^ (0 : Nat),
    reserve1 := ((100 : Int) : Rat) / 10 ^ (0 : Nat) }

/-- A computable stand-in weight function for concrete runs of the detector
and monitors (which treat edge weights generically); it gives every edge
weight `-1`, i.e. models every fee-adjusted price exceeding `e`.  The source
instantiation is `ArbBot.negLogR`. -/
def negLogZ : Rat → Int := fun _ => -1

/-- A computable stand-in for the gain map `fun w => Real.exp (-w)` in
concrete runs. -/
def expNegZ : Int → Int := fun w => -w

/-- A provider whose every call fails with a transport fault. -/
def provT : Provider :=
  { token0 := fun _ => .error .transport, token1 := fun _ => .error .transport,
    symbol := fun _ => .error .transport, decimals := fun _ => .error .transport,
    getReserves := fun _ => .error .transport, poolAddresses := ["P"] }

/-- A provider whose every pool-directed call fails with a contract-call
fault (`BadFunctionCallOutput`). -/
def provBad : Provider :=
  { token0 := fun _ => .error .badCall, token1 := fun _ => .error .badCall,
    symbol := fun _ => .error .badCall, decimals := fun _ => .error .badCall,
    getReserves := fun _ => .error .badCall, poolAddresses := ["P"] }

/-- A provider on which pool "P" resolves to tokens "A"/"B" with reserves
`(1, 1)`. -/
def provOk : Provider :=
  { token0 := fun _ => .ok "A", token1 := fun _ => .ok "B",
    symbol := fun t => .ok t, decimals := fun _ => .ok 0,
    getReserves := fun _ => .ok (1, 1, 0), poolAddresses := ["P"] }

/-- The external world of the C2 counterexample: pool "P" fails its very
first call on tick 0, and works on every later tick. -/
def provsFlaky : Nat → Provider := fun t => if t = 0 then provBad else provOk

/-- The pool state a successful refresh leaves behind (used to relate the
pool lists of successive monitor ticks; an update that faults leaves the
tick's pool list unused). -/
def updOk (prov : Provider) (q : ArbBot.Pool) : ArbBot.Pool :=
  match (ArbBot.Pool.update_tokens_and_reserves prov q).1 with
  | .ok r => r
  | .error _ => q

/-- An already-invalidated pool of the persistent-pool monitor. -/
def poolI : ArbBot.Pool := { address := "P", is_valid_pair := false }

/-- The pool state a successful refresh against `provOk` produces. -/
def prOk : DiscBot.Pool :=
  { address := "P", token0 := some "A", token1 := some "B",
    token0_symbol := some "A", token1_symbol := some "B",
    token0_decimals := some 0, token1_decimals := some 0,
    reserve0 := 1, reserve1 := 1, is_valid := true }

/-- The edges the discovery build produces against `provOk`. -/
def edgesOk : List (Edge Int DiscBot.Pool) :=
  [⟨"A", "B", -1, prOk⟩, ⟨"B", "A", -1, prOk⟩]

/-- The chain calls a successful first refresh of pool "P" makes. -/
def callsOk : List Call :=
  [.token0 "P", .token1 "P", .symbol "A", .decimals "A",
   .symbol "B", .decimals "B", .getReserves "P"]

/-- The signature of the cycle found on the `provOk` graph. -/
def keyBAB : String := String.intercalate "→" ["B", "A", "B"]

/-- The pool state a successful refresh of the persistent-pool monitor's pool
"P" against `provOk` produces. -/
def arbPrOk : ArbBot.Pool :=
  { address := "P", token0 := some "A", token1 := some "B",
    token0_decimals := some 0, token1_decimals := some 0,
    token0_symbol := some "A", token1_symbol := some "B",
    reserve0 := 1, reserve1 := 1 }

/-- The edges the persistent-pool build produces against `provOk`. -/
def arbEdgesOk : List (Edge Int ArbBot.Pool) :=
  [⟨"A", "B", -1, arbPrOk⟩, ⟨"B", "A", -1, arbPrOk⟩]

/-- The chain calls a refresh of an already-resolved pool "P" makes. -/
def callsOk2 : List Call := [.getReserves "P"]

/-- The signature `monitor_arbitrage` gives the cycle found on the `provOk`
graph (this variant joins with a spaced arrow). -/
def keyArbBAB : String := String.intercalate " → " ["B", "A", "B"]

/-- Sum of the weights of the edges along a reported cycle, each hop looked
up among the graph edges by its endpoint pair; `none` if some hop has no
edge. -/
def cycleWeightSum {P : Type} (edges : List (Edge Real P)) :
    List Token → Option Real
  | t0 :: t1 :: rest =>
    match edges.find? (fun e => e.u == t0 && e.v == t1) with
    | some e =>
      match cycleWeightSum edges (t1 :: rest) with
      | some srest => some (e.w + srest)
      | none => none
    | none => none
  | _ => some 0

/-- The specification's authoritative gain formula, stated in the spec's own
words for comparison with the code's `cycle_gain`: the product of
fee-adjusted prices around the whole cycle, i.e. `exp (-S)` where `S` is the
sum of the weights of all edges in the reported cycle. -/
noncomputable def spec_cycle_gain {P : Type} (edges : List (Edge Real P))
    (cyc : List Token) : Option Real :=
  (cycleWeightSum edges cyc).map (fun s => Real.exp (-s))

/-- Scenario-A provider: three pools with raw prices 2.0, 1.5 and 0.4. -/
def provA : Provider :=
  { token0 := fun _ => .error .badCall, token1 := fun _ => .error .badCall,
    symbol := fun _ => .error .badCall, decimals := fun _ => .error .badCall,
    getReserves := fun a =>
      .ok (if a = "P1" then 1 else if a = "P2" then 2 else 5,
           if a = "P1" then 2 else if a = "P2" then 3 else 2, 0),
    poolAddresses := [] }

/-- Scenario-A pool A/B, identity already resolved. -/
def pA1 : ArbBot.Pool :=
  { address := "P1", token0 := some "A", token1 := some "B",
    token0_decimals := some 0, token1_decimals := some 0,
    token0_symbol := some "A", token1_symbol := some "B" }

/-- Scenario-A pool B/C. -/
def pA2 : ArbBot.Pool :=
  { address := "P2", token0 := some "B", token1 := some "C",
    token0_decimals := some 0, token1_decimals := some 0,
    token0_symbol := some "B", token1_symbol := some "C" }

/-- Scenario-A pool C/A. -/
def pA3 : ArbBot.Pool :=
  { address := "P3", token0 := some "C", token1 := some "A",
    token0_decimals := some 0, token1_decimals := some 0,
    token0_symbol := some "C", token1_symbol := some "A" }

/-- Scenario-A pool A/B after its refresh. -/
def pA1r : ArbBot.Pool := { pA1 with reserve0 := 1, reserve1 := 2 }

/-- Scenario-A pool B/C after its refresh. -/
def pA2r : ArbBot.Pool := { pA2 with reserve0 := 2, reserve1 := 3 }

/-- Scenario-A pool C/A after its refresh. -/
def pA3r : ArbBot.Pool := { pA3 with reserve0 := 5, reserve1 := 2 }

/-- The graph the builder produces from the scenario-A pools, with the
source's `-ln` weights over the fee-adjusted prices. -/
noncomputable def bA : ArbBot.BuildOut Real ArbBot.Pool :=
  { pools := [pA1r, pA2r, pA3r],
    nodes := ["A", "B", "C"],
    edges :=
      [⟨"A", "B", -Real.log ((997 / 500 : Rat) : Real), pA1r⟩,
       ⟨"B", "A", -Real.log ((997 / 2000 : Rat) : Real), pA1r⟩,
       ⟨"B", "C", -Real.log ((2991 / 2000 : Rat) : Real), pA2r⟩,
       ⟨"C", "B", -Real.log ((997 / 1500 : Rat) : Real), pA2r⟩,
       ⟨"C", "A", -Real.log ((997 / 2500 : Rat) : Real), pA3r⟩,
       ⟨"A", "C", -Real.log ((997 / 400 : Rat) : Real), pA3r⟩],
    calls := [.getReserves "P1", .getReserves "P2", .getReserves "P3"] }

/-- The scenario-A arbitrage cycle as reported (closed token walk). -/
def cycA : List Token := ["A", "B", "C", "A"]

/-- Number of opportunity events with signature `s` a tick emitted. -/
def tickEventCount (s : String) {F P : Type} (r : TickRes F P) : Nat :=
  match r with
  | .ok o => (o.events.filter (fun e => e.key == s)).length
  | _ => 0

/-- Number of opportunity events with signature `s` emitted during a run. -/
def countEvents (s : String) {F P : Type} (tr : List (TickRes F P)) : Nat :=
  (tr.map (tickEventCount s)).sum

/-- Whether a tick's detector reported a (non-empty) cycle with signature
`s`. -/
def tickFound (s : String) {F P : Type} (r : TickRes F P) : Bool :=
  match r with
  | .ok o => o.cycleKey == some s
  | _ => false

/-- Number of ticks of a run on which the detector reported signature `s`. -/
def countFound (s : String) {F P : Type} (tr : List (TickRes F P)) : Nat :=
  (tr.filter (tickFound s)).length

/-- Number of opportunity events with signature `s` a completed
persistent-pool monitor tick emitted. -/
def outEventCount (s : String) {F P : Type} (o : TickOut F P) : Nat :=
  (o.events.filter (fun e => e.key == s)).length

/-- Number of opportunity events with signature `s` a persistent-pool monitor
run emitted. -/
def countEventsOut (s : String) {F P : Type} (tr : List (TickOut F P)) : Nat :=
  (tr.map (outEventCount s)).sum

/-- Whether a completed persistent-pool monitor tick's detector reported a
cycle with signature `s`. -/
def outFound (s : String) {F P : Type} (o : TickOut F P) : Bool :=
  o.cycleKey == some s

/-- Number of ticks of a persistent-pool monitor run on which the detector
reported signature `s`. -/
def countFoundOut (s : String) {F P : Type} (tr : List (TickOut F P)) : Nat :=
  (tr.filter (outFound s)).length

/-- Relates two build results that agree on everything the rest of a tick
can observe (nodes, edges, calls — the refreshed pool lists may differ). -/
def BRel {F : Type} (x y : Except Fault (ArbBot.BuildOut F ArbBot.Pool)) : Prop :=
  match x, y with
  | .ok b, .ok b' => b.nodes = b'.nodes ∧ b.edges = b'.edges ∧ b.calls = b'.calls
  | .error f, .error f' => f = f'
  | _, _ => False

namespace BF

/-- The endpoint reached from `s` by following an edge list in order (each
edge hop moves to the edge's head `v`). -/
def dest {F P : Type} (s : Token) : List (Edge F P) → Token
  | [] => s
  | e :: l => dest e.v l

end BF

/-- A one-edge graph with positive weight: trivially free of negative
cycles. -/
def wPos : List (Edge Int Unit) :=
  [{ u := "A", v := "B", w := 1, pool := () }]

/-- A two-node graph that is one negative cycle `A -> B -> A`. -/
def wNeg : List (Edge Int Unit) :=
  [{ u := "A", v := "B", w := -1, pool := () },
   { u := "B", v := "A", w := -1, pool := () }]

/-- A graph on `[A, B, C]` whose negative cycle `A <-> B` feeds the edge
`B -> C`: the verification pass flags `B -> C`, whose head `C` never received
a predecessor, so the backward pre-walk from `C` meets a missing predecessor
immediately. -/
def cexC7 : List (Edge Int Unit) :=
  [{ u := "B", v := "C", w := 1, pool := () },
   { u := "A", v := "B", w := -1, pool := () },
   { u := "B", v := "A", w := -1, pool := () }]

/-- C9: with an empty pool list the build returns an empty node set and edge
list (and makes no call), and both detectors return the empty cycle on the
empty graph — an empty configuration degrades to an empty result, not an
error. -/
theorem C9_empty_pool_list {F P : Type} [LinearOrderedAddCommGroup F]
    (negLog : Rat → F) (prov : Provider) :
    ArbBot.build_rate_graph negLog prov [] = .ok ⟨[], [], [], []⟩ ∧
    DiscBot.build_graph negLog prov [] = .ok ⟨[], [], [], []⟩ ∧
    ArbBot.find_negative_cycle ([] : List Token) ([] : List (Edge F P)) =
      some ([], []) ∧
    DiscBot.find_negative_cycle ([] : List Token) ([] : List (Edge F P)) =
      some ([], []) := by
  refine ⟨rfl, rfl, rfl, rfl⟩

/-- C8: the detectors are deterministic — two runs on the same graph (same
node indexing and same edge iteration order; in this embedding a graph is the
ordered node list and ordered edge list, so the tie-break order is part of
the input) return identical token and pool sequences. -/
theorem C8_detector_deterministic {F P : Type} [LinearOrderedAddCommGroup F]
    (nodes₁ nodes₂ : List Token) (edges₁ edges₂ : List (Edge F P))
    (hn : nodes₁ = nodes₂) (he : edges₁ = edges₂) :
    ArbBot.find_negative_cycle nodes₁ edges₁ =
      ArbBot.find_negative_cycle nodes₂ edges₂ ∧
    DiscBot.find_negative_cycle nodes₁ edges₁ =
      DiscBot.find_negative_cycle nodes₂ edges₂ := by
  subst hn; subst he; exact ⟨rfl, rfl⟩

/-- Witness for C8 at a concrete graph. -/
theorem C8_detector_deterministic_witness :
    ArbBot.find_negative_cycle ["A", "B"] [⟨"A", "B", (1 : Rat), (0 : Nat)⟩] =
      ArbBot.find_negative_cycle ["A", "B"] [⟨"A", "B", (1 : Rat), (0 : Nat)⟩] ∧
    DiscBot.find_negative_cycle ["A", "B"] [⟨"A", "B", (1 : Rat), (0 : Nat)⟩] =
      DiscBot.find_negative_cycle ["A", "B"] [⟨"A", "B", (1 : Rat), (0 : Nat)⟩] :=
  C8_detector_deterministic ["A", "B"] ["A", "B"] _ _ rfl rfl

/-- Membership in `insertNode`: the inserted token is present. -/
theorem mem_insertNode_self (nodes : List Token) (t : Token) :
    t ∈ insertNode nodes t := by
  unfold insertNode
  by_cases h : t ∈ nodes <;> simp [h]

/-- Membership in `insertNode` is preserved. -/
theorem mem_insertNode_of_mem (nodes : List Token) (t t' : Token)
    (h : t ∈ nodes) : t ∈ insertNode nodes t' := by
  unfold insertNode
  by_cases h' : t' ∈ nodes <;> simp [h', h]

/-- C5: processing one valid pool in `build_rate_graph` (with the source's
real `-ln` weights) appends exactly one `token0 -> token1` edge when the
fee-adjusted forward price is strictly positive and none otherwise, likewise
for the backward direction, each weighted by `-ln` of its price; a zero
denominator reserve makes that direction's price 0 (so no edge) while the
other direction's price is unaffected, and both token addresses join the node
set in every case. -/
theorem C5_edges_iff_positive_price (prov : Provider) (b : ArbBot.BuildOut Real ArbBot.Pool)
    (pool p : ArbBot.Pool) (cs : List Call)
    (hup : ArbBot.Pool.update_tokens_and_reserves prov pool = (.ok p, cs))
    (hv : p.is_valid_pair = true) :
    ArbBot.build_fold ArbBot.negLogR id prov (.ok b) pool =
      .ok ⟨b.pools ++ [p],
           insertNode (insertNode b.nodes (p.token0.getD "")) (p.token1.getD ""),
           b.edges ++
             (if 0 < p.price_token0_to_token1 then
               [⟨p.token0.getD "", p.token1.getD "",
                 -Real.log (p.price_token0_to_token1 : Real), p⟩] else []) ++
             (if 0 < p.price_token1_to_token0 then
               [⟨p.token1.getD "", p.token0.getD "",
                 -Real.log (p.price_token1_to_token0 : Real), p⟩] else []),
           b.calls ++ cs⟩ ∧
    (p.reserve0 = 0 → p.price_token0_to_token1 = 0) ∧
    (p.reserve1 = 0 → p.price_token1_to_token0 = 0) ∧
    (p.reserve0 ≠ 0 →
      p.price_token0_to_token1 = p.reserve1 / p.reserve0 * (997 / 1000)) ∧
    (p.reserve1 ≠ 0 →
      p.price_token1_to_token0 = p.reserve0 / p.reserve1 * (997 / 1000)) ∧
    p.token0.getD "" ∈
      insertNode (insertNode b.nodes (p.token0.getD "")) (p.token1.getD "") ∧
    p.token1.getD "" ∈
      insertNode (insertNode b.nodes (p.token0.getD "")) (p.token1.getD "") := by
  refine ⟨?_, ?_, ?_, ?_, ?_, ?_, ?_⟩
  · unfold ArbBot.build_fold
    rw [hup]
    by_cases h01 : 0 < p.price_token0_to_token1 <;>
      by_cases h10 : 0 < p.price_token1_to_token0 <;>
        simp [hv, h01, h10, ArbBot.negLogR]
  · intro h; simp [ArbBot.Pool.price_token0_to_token1, h]
  · intro h; simp [ArbBot.Pool.price_token1_to_token0, h]
  · intro h; simp [ArbBot.Pool.price_token0_to_token1, h]
  · intro h; simp [ArbBot.Pool.price_token1_to_token0, h]
  · exact mem_insertNode_of_mem _ _ _ (mem_insertNode_self _ _)
  · exact mem_insertNode_self _ _

/-- Witness for C5: the zero-reserve pool of the scenario, refreshed against
`provC`, really is the stated refresh result, and its forward price is 0. -/
theorem C5_edges_iff_positive_price_witness :
    ArbBot.Pool.update_tokens_and_reserves provC poolC =
      (.ok poolCr, [Call.getReserves "P"]) ∧
    poolCr.is_valid_pair = true ∧
    (poolCr.reserve0 = 0 → poolCr.price_token0_to_token1 = 0) :=
  ⟨rfl, rfl,
   (C5_edges_iff_positive_price provC ⟨[], [], [], []⟩ poolC poolCr
     [Call.getReserves "P"] rfl rfl).2.1⟩

/-- An invalid pool's refresh returns immediately: unchanged state, no chain
call (`if not self.is_valid_pair: return`). -/
theorem update_invalid_noop (prov : Provider) (p : ArbBot.Pool)
    (hp : p.is_valid_pair = false) :
    ArbBot.Pool.update_tokens_and_reserves prov p = (.ok p, []) := by
  simp [ArbBot.Pool.update_tokens_and_reserves, hp]

/-- `updOk` leaves an invalid pool unchanged. -/
theorem updOk_invalid (prov : Provider) (p : ArbBot.Pool)
    (hp : p.is_valid_pair = false) : updOk prov p = p := by
  simp [updOk, update_invalid_noop prov p hp]

/-- A failed build stays failed through the remaining pools. -/
theorem foldl_build_error {F : Type} (negLog : Rat → F) (prov : Provider)
    (l : List ArbBot.Pool) (f : Fault) :
    List.foldl (ArbBot.build_fold negLog id prov) (.error f) l = .error f := by
  induction l with
  | nil => rfl
  | cons q l ih => simpa [ArbBot.build_fold] using ih

/-- Processing an invalid pool in the build appends it (unchanged) to the
refreshed pool list and contributes nothing else: no node, no edge, no chain
call. -/
theorem build_fold_invalid {F : Type} (negLog : Rat → F) (prov : Provider)
    (b : ArbBot.BuildOut F ArbBot.Pool) (p : ArbBot.Pool)
    (hp : p.is_valid_pair = false) :
    ArbBot.build_fold negLog id prov (.ok b) p =
      .ok { b with pools := b.pools ++ [p] } := by
  simp [ArbBot.build_fold, update_invalid_noop prov p hp, hp]

/-- One build step preserves `BRel`. -/
theorem build_fold_rel {F : Type} (negLog : Rat → F) (prov : Provider)
    (x y : Except Fault (ArbBot.BuildOut F ArbBot.Pool)) (q : ArbBot.Pool)
    (h : BRel x y) :
    BRel (ArbBot.build_fold negLog id prov x q)
      (ArbBot.build_fold negLog id prov y q) := by
  cases x with
  | error f =>
    cases y with
    | error f' =>
      have hf : f = f' := h
      subst hf
      simp [ArbBot.build_fold, BRel]
    | ok b => exact absurd h (by simp [BRel])
  | ok b =>
    cases y with
    | error f => exact absurd h (by simp [BRel])
    | ok b' =>
      obtain ⟨hn, he, hc⟩ := h
      simp only [ArbBot.build_fold]
      rcases hup : ArbBot.Pool.update_tokens_and_reserves prov q with ⟨res, cs⟩
      cases res with
      | error f => simp [BRel]
      | ok p =>
        by_cases hv : p.is_valid_pair = false <;>
          simp [BRel, hv, hn, he, hc]

/-- A whole edge-list fold preserves `BRel`. -/
theorem foldl_build_rel {F : Type} (negLog : Rat → F) (prov : Provider) :
    ∀ (l : List ArbBot.Pool) (x y : Except Fault (ArbBot.BuildOut F ArbBot.Pool)),
    BRel x y →
    BRel (List.foldl (ArbBot.build_fold negLog id prov) x l)
      (List.foldl (ArbBot.build_fold negLog id prov) y l)
  | [], _, _, h => h
  | q :: l, x, y, h =>
    foldl_build_rel negLog prov l _ _ (build_fold_rel negLog prov x y q h)

/-- Building with an invalid pool spliced in yields the same nodes, edges and
chain calls as building without it. -/
theorem build_skip_invalid {F : Type} (negLog : Rat → F) (prov : Provider)
    (ps1 ps2 : List ArbBot.Pool) (p : ArbBot.Pool)
    (hp : p.is_valid_pair = false) :
    BRel (ArbBot.build_rate_graph negLog prov (ps1 ++ p :: ps2))
      (ArbBot.build_rate_graph negLog prov (ps1 ++ ps2)) := by
  unfold ArbBot.build_rate_graph
  rw [List.foldl_append, List.foldl_append]
  rcases List.foldl (ArbBot.build_fold negLog id prov) (.ok ⟨[], [], [], []⟩) ps1 with f | b
  · rw [List.foldl_cons]
    have h1 : ArbBot.build_fold negLog id prov (.error f) p = .error f := by
      simp [ArbBot.build_fold]
    rw [h1, foldl_build_error]
    simp [BRel]
  · rw [List.foldl_cons, build_fold_invalid negLog prov b p hp]
    exact foldl_build_rel negLog prov ps2 _ _ ⟨rfl, rfl, rfl⟩

/-- The refreshed pool list of a successful build step. -/
theorem build_fold_ok_pools {F : Type} (negLog : Rat → F) (prov : Provider)
    (b0 b1 : ArbBot.BuildOut F ArbBot.Pool) (q : ArbBot.Pool)
    (h : ArbBot.build_fold negLog id prov (.ok b0) q = .ok b1) :
    b1.pools = b0.pools ++ [updOk prov q] := by
  unfold ArbBot.build_fold at h
  rcases hup : ArbBot.Pool.update_tokens_and_reserves prov q with ⟨res, cs⟩
  rw [hup] at h
  cases res with
  | error f => simp at h
  | ok p =>
    by_cases hv : p.is_valid_pair = false <;> simp [hv] at h <;>
      subst h <;> simp [updOk, hup]

/-- The refreshed pool list of a successful build is the pointwise refresh of
the input pool list. -/
theorem build_pools_aux {F : Type} (negLog : Rat → F) (prov : Provider) :
    ∀ (l : List ArbBot.Pool) (b0 b : ArbBot.BuildOut F ArbBot.Pool),
    List.foldl (ArbBot.build_fold negLog id prov) (.ok b0) l = .ok b →
    b.pools = b0.pools ++ l.map (updOk prov) := by
  intro l
  induction l with
  | nil =>
    intro b0 b h
    injection h with h
    subst h
    simp
  | cons q l ih =>
    intro b0 b h
    rw [List.foldl_cons] at h
    rcases hstep : ArbBot.build_fold negLog id prov (.ok b0) q with f | b1
    · rw [hstep, foldl_build_error] at h
      cases h
    · rw [hstep] at h
      have h1 := build_fold_ok_pools negLog prov b0 b1 q hstep
      have h2 := ih b1 b h
      simp [h2, h1]

/-- The refreshed pool list of a successful `build_rate_graph`. -/
theorem build_pools_eq {F : Type} (negLog : Rat → F) (prov : Provider)
    (l : List ArbBot.Pool) (b : ArbBot.BuildOut F ArbBot.Pool)
    (h : ArbBot.build_rate_graph negLog prov l = .ok b) :
    b.pools = l.map (updOk prov) := by
  have := build_pools_aux negLog prov l ⟨[], [], [], []⟩ b h
  simpa using this

/-- C2 (amended): in the persistent-pool monitor (`monitor_arbitrage`) a pool
that is PermanentlyInvalid is inert for the remainder of the run: its refresh
makes no chain call and returns it unchanged, and the whole observable trace
(graph nodes and edges, chain calls and events of this and every later tick)
is the same as if the pool were absent from the pool list. -/
theorem C2_invalid_pool_inert {F : Type} [LinearOrderedAddCommGroup F]
    (negLog : Rat → F) (expNeg : F → F) (p : ArbBot.Pool)
    (hp : p.is_valid_pair = false) :
    (∀ prov, ArbBot.Pool.update_tokens_and_reserves prov p = (.ok p, [])) ∧
    (∀ (n : Nat) (provs : Nat → Provider) (ps1 ps2 : List ArbBot.Pool)
       (seen : List String),
      ArbBot.monitor_arbitrage negLog expNeg provs n (ps1 ++ p :: ps2) seen =
        ArbBot.monitor_arbitrage negLog expNeg provs n (ps1 ++ ps2) seen) := by
  refine ⟨fun prov => update_invalid_noop prov p hp, ?_⟩
  intro n
  induction n with
  | zero => intro provs ps1 ps2 seen; rfl
  | succ n ih =>
    intro provs ps1 ps2 seen
    have hB := build_skip_invalid negLog (provs 0) ps1 ps2 p hp
    rcases h1 : ArbBot.build_rate_graph negLog (provs 0) (ps1 ++ p :: ps2)
      with f1 | b1 <;>
      rcases h2 : ArbBot.build_rate_graph negLog (provs 0) (ps1 ++ ps2)
        with f2 | b2 <;> rw [h1, h2] at hB
    · simp [ArbBot.monitor_arbitrage, ArbBot.monitor_tick, h1, h2]
    · exact absurd hB (by simp [BRel])
    · exact absurd hB (by simp [BRel])
    · obtain ⟨hn, he, hc⟩ := hB
      have hp1 : b1.pools = List.map (updOk (provs 0)) ps1 ++
          p :: List.map (updOk (provs 0)) ps2 := by
        have := build_pools_eq negLog (provs 0) _ b1 h1
        simpa [updOk_invalid (provs 0) p hp] using this
      have hp2 : b2.pools = List.map (updOk (provs 0)) ps1 ++
          List.map (updOk (provs 0)) ps2 := by
        have := build_pools_eq negLog (provs 0) _ b2 h2
        simpa using this
      simp only [ArbBot.monitor_arbitrage, ArbBot.monitor_tick, h1, h2]
      rw [hn, he, hc]
      rcases hf : ArbBot.find_negative_cycle b2.nodes b2.edges
        with _ | ⟨cyc, cycp⟩
      · simp [hf]
      · rcases cyc with _ | ⟨t, ts⟩
        · simp [hf, hp1, hp2, ih]
        · by_cases hk : String.intercalate " → " (t :: ts) ∈ seen
          · simp [hf, hk, hp1, hp2, ih]
          · rcases hg : cycle_gain expNeg b2.edges (t :: ts) with _ | g
            · simp [hf, hk, hg]
            · simp [hf, hk, hg, hp1, hp2, ih]

/-- Witness for C2 (amended) at a concrete invalid pool and a one-tick run. -/
theorem C2_invalid_pool_inert_witness :
    poolI.is_valid_pair = false ∧
    ArbBot.Pool.update_tokens_and_reserves provOk poolI = (.ok poolI, []) ∧
    ArbBot.monitor_arbitrage negLogZ expNegZ (fun _ => provOk) 1
        ([] ++ poolI :: []) [] =
      ArbBot.monitor_arbitrage negLogZ expNegZ (fun _ => provOk) 1 ([] ++ []) [] :=
  ⟨rfl, (C2_invalid_pool_inert negLogZ expNegZ poolI rfl).1 provOk,
   (C2_invalid_pool_inert negLogZ expNegZ poolI rfl).2 1 (fun _ => provOk) [] [] []⟩

/-- C2 counterexample: in the discovery monitor, pool "P" is marked invalid
during tick 0 (first conjunct: the tick-0 build invalidates it and takes no
node from it), yet on tick 1 — the pool objects having been re-instantiated
from the address list — chain calls are made for "P" again and its tokens and
edges enter the graph, contrary to the claimed run-wide exclusion. -/
theorem C2_counterexample_pool_retried :
    DiscBot.build_graph negLogZ provBad [DiscBot.mkPool "P"] =
      .ok ⟨[{ address := "P", is_valid := false }], [], [], [.token0 "P"]⟩ ∧
    DiscBot.monitor negLogZ expNegZ false provsFlaky 2 [] =
      [.ok ⟨[], [], [.token0 "P"], none, []⟩,
       .ok ⟨["A", "B"], edgesOk, callsOk, some keyBAB, [⟨keyBAB, 1⟩]⟩] := by
  constructor
  · norm_num [DiscBot.build_graph, DiscBot.build_fold, DiscBot.Pool.update,
      DiscBot.mkPool, provBad]
  · have ht0 : DiscBot.monitor_tick negLogZ expNegZ false provBad
        ([] : List String) = ([], .ok ⟨[], [], [.token0 "P"], none, []⟩) := by
      have hb0 : DiscBot.build_graph negLogZ provBad [DiscBot.mkPool "P"] =
          .ok ⟨[{ address := "P", is_valid := false }], [], [], [.token0 "P"]⟩ := by
        norm_num [DiscBot.build_graph, DiscBot.build_fold, DiscBot.Pool.update,
          DiscBot.mkPool, provBad]
      simp only [DiscBot.monitor_tick,
        show provBad.poolAddresses = ["P"] from rfl, List.map_cons,
        List.map_nil, hb0]
      rfl
    have ht1 : DiscBot.monitor_tick negLogZ expNegZ false provOk
        ([] : List String) =
        ([keyBAB], .ok ⟨["A", "B"], edgesOk, callsOk, some keyBAB,
          [⟨keyBAB, 1⟩]⟩) := by
      have hb1 : DiscBot.build_graph negLogZ provOk [DiscBot.mkPool "P"] =
          .ok ⟨[prOk], ["A", "B"], edgesOk, callsOk⟩ := by
        norm_num [DiscBot.build_graph, DiscBot.build_fold, DiscBot.Pool.update,
          DiscBot.mkPool, provOk, DiscBot.fetch_token_info, DiscBot.scaleReserve,
          DiscBot.Pool.price0_to_1, DiscBot.Pool.price1_to_0, insertNode, prOk,
          negLogZ, edgesOk, callsOk]
        decide
      have hf1 : DiscBot.find_negative_cycle ["A", "B"] edgesOk =
          some (["B", "A", "B"], [prOk, prOk]) := by decide
      have hg1 : cycle_gain expNegZ edgesOk ["B", "A", "B"] = some 1 := by decide
      simp only [DiscBot.monitor_tick,
        show provOk.poolAddresses = ["P"] from rfl, List.map_cons,
        List.map_nil, hb1, hf1, hg1, addSeen, keyBAB]
      simp [keyBAB]
    have hs0 : provsFlaky 0 = provBad := rfl
    have hs1 : (fun k => provsFlaky (k + 1)) 0 = provOk := rfl
    simp only [DiscBot.monitor, hs0, hs1, ht0, ht1]

/-- Against the all-transport-failing provider, the persistent-pool monitor
run ends immediately with an empty trace: no exception handler in its loop. -/
theorem provT_arb_trace :
    ArbBot.monitor_arbitrage negLogZ expNegZ (fun _ => provT) 2
      [ArbBot.mkPool "P"] [] = [] := by
  have hb : ArbBot.build_rate_graph negLogZ provT [ArbBot.mkPool "P"] =
      (.error .transport : Except Fault (ArbBot.BuildOut Int ArbBot.Pool)) := by
    norm_num [ArbBot.build_rate_graph, ArbBot.build_fold,
      ArbBot.Pool.update_tokens_and_reserves, ArbBot.mkPool, provT]
  simp [ArbBot.monitor_arbitrage, ArbBot.monitor_tick, hb]

/-- Against the same provider, the discovery monitor catches the exception on
both ticks and completes the run. -/
theorem provT_disc_trace :
    DiscBot.monitor negLogZ expNegZ false (fun _ => provT) 2 [] =
      [.exc, .exc] := by
  have ht : DiscBot.monitor_tick negLogZ expNegZ false provT
      ([] : List String) = ([], .exc) := by
    have hb : DiscBot.build_graph negLogZ provT [DiscBot.mkPool "P"] =
        (.error .transport : Except Fault (ArbBot.BuildOut Int DiscBot.Pool)) := by
      norm_num [DiscBot.build_graph, DiscBot.build_fold, DiscBot.Pool.update,
        DiscBot.mkPool, provT]
    simp only [DiscBot.monitor_tick,
      show provT.poolAddresses = ["P"] from rfl, List.map_cons,
      List.map_nil, hb]
  simp [DiscBot.monitor, ht, show ∀ k : Nat, (fun _ => provT) k = provT from
    fun _ => rfl]

/-- C3 counterexample: `monitor_arbitrage` has no exception handler in its
loop — with a provider whose calls raise transport errors, a 2-tick run ends
at the first tick with an empty trace (the exception terminates the monitor),
while the discovery monitor run on the same world catches the exception on
each tick and completes both ticks. -/
theorem C3_counterexample_monitor_dies :
    ArbBot.monitor_arbitrage negLogZ expNegZ (fun _ => provT) 2
      [ArbBot.mkPool "P"] [] = [] ∧
    DiscBot.monitor negLogZ expNegZ false (fun _ => provT) 2 [] =
      [.exc, .exc] :=
  ⟨provT_arb_trace, provT_disc_trace⟩

/-- Every branch of the discovery tick completes with `.ok` or with a caught
exception `.exc` — the tick body never hangs. -/
theorem disc_tick_not_stuck {F : Type} [LinearOrderedAddCommGroup F]
    (negLog : Rat → F) (expNeg : F → F) (verbose : Bool) (prov : Provider)
    (seen : List String) :
    (DiscBot.monitor_tick negLog expNeg verbose prov seen).2 ≠ .stuck := by
  unfold DiscBot.monitor_tick
  dsimp only
  split
  · simp
  · split
    · simp
    · split
      · simp
      · split
        · split
          · simp
          · simp
        · simp

/-- C3 (amended): in the discovery monitor every exception raised during a
tick — a transport fault of the build as well as the extraction TypeError —
is caught and the loop continues, so a run of `n` ticks always yields exactly
`n` per-tick results, failed ticks included.  (The claim fails for
`monitor_arbitrage`, whose loop has no handler — see the counterexample.) -/
theorem C3_disc_monitor_survives_exceptions {F : Type}
    [LinearOrderedAddCommGroup F] (negLog : Rat → F) (expNeg : F → F)
    (verbose : Bool) :
    ∀ (n : Nat) (provs : Nat → Provider) (seen : List String),
    (DiscBot.monitor negLog expNeg verbose provs n seen).length = n := by
  intro n
  induction n with
  | zero => intro provs seen; rfl
  | succ n ih =>
    intro provs seen
    rcases ht : DiscBot.monitor_tick negLog expNeg verbose (provs 0) seen
      with ⟨seen', res⟩
    cases res with
    | ok out =>
      rw [DiscBot.monitor, ht]
      simpa using ih (fun k => provs (k + 1)) seen'
    | exc =>
      rw [DiscBot.monitor, ht]
      simpa using ih (fun k => provs (k + 1)) seen'
    | stuck =>
      exact absurd
        (show (DiscBot.monitor_tick negLog expNeg verbose (provs 0) seen).2 =
          .stuck by rw [ht])
        (disc_tick_not_stuck negLog expNeg verbose (provs 0) seen)

/-- Case analysis of a completed discovery tick: either no cycle was found
(no event, seen-set unchanged), or a cycle with signature `k` was found and
either the reporting branch was taken (`k` new or verbose; `k` joins the
seen-set and exactly one event with key `k` is emitted) or it was suppressed
(`k` already seen and not verbose; no event, seen-set unchanged). -/
theorem monitor_tick_ok_cases {F : Type} [LinearOrderedAddCommGroup F]
    (negLog : Rat → F) (expNeg : F → F) (verbose : Bool) (prov : Provider)
    (seen seen' : List String) (out : TickOut F DiscBot.Pool)
    (ht : DiscBot.monitor_tick negLog expNeg verbose prov seen =
      (seen', .ok out)) :
    (out.cycleKey = none ∧ out.events = [] ∧ seen' = seen) ∨
    (∃ k, out.cycleKey = some k ∧
      (((k ∉ seen ∨ verbose = true) ∧ seen' = addSeen seen k ∧
         ∃ g, out.events = [⟨k, g⟩]) ∨
       (k ∈ seen ∧ verbose = false ∧ seen' = seen ∧ out.events = []))) := by
  unfold DiscBot.monitor_tick at ht
  dsimp only at ht
  split at ht
  · exact absurd ht (by simp)
  · split at ht
    · exact absurd ht (by simp)
    · split at ht
      · simp only [Prod.mk.injEq] at ht
        obtain ⟨h1, h2⟩ := ht
        subst h1
        injection h2 with h2
        subst h2
        exact .inl ⟨rfl, rfl, rfl⟩
      · split at ht
        · rename_i hbr
          split at ht
          · exact absurd ht (by simp)
          · simp only [Prod.mk.injEq] at ht
            obtain ⟨h1, h2⟩ := ht
            subst h1
            injection h2 with h2
            subst h2
            exact .inr ⟨_, rfl, .inl ⟨hbr, rfl, _, rfl⟩⟩
        · rename_i hbr
          push_neg at hbr
          simp only [Prod.mk.injEq] at ht
          obtain ⟨h1, h2⟩ := ht
          subst h1
          injection h2 with h2
          subst h2
          exact .inr ⟨_, rfl, .inr ⟨hbr.1, by simpa using hbr.2, rfl, rfl⟩⟩

/-- Membership after a seen-set insertion. -/
theorem mem_addSeen (seen : List String) (k a : String) :
    a ∈ addSeen seen k ↔ a ∈ seen ∨ a = k := by
  unfold addSeen
  by_cases hk : k ∈ seen
  · simp only [if_pos hk]
    constructor
    · exact fun h => .inl h
    · rintro (h | rfl)
      · exact h
      · exact hk
  · simp [if_neg hk]

/-- Event count of a trace, tick by tick. -/
theorem countEvents_cons (s : String) {F P : Type} (r : TickRes F P)
    (tr : List (TickRes F P)) :
    countEvents s (r :: tr) = tickEventCount s r + countEvents s tr := by
  simp [countEvents]

/-- Found count of a trace, tick by tick. -/
theorem countFound_cons (s : String) {F P : Type} (r : TickRes F P)
    (tr : List (TickRes F P)) :
    countFound s (r :: tr) =
      (if tickFound s r then 1 else 0) + countFound s tr := by
  by_cases h : tickFound s r <;> simp [countFound, List.filter_cons, h] <;> omega

/-- Event count of a persistent-pool monitor trace, tick by tick. -/
theorem countEventsOut_cons (s : String) {F P : Type} (o : TickOut F P)
    (tr : List (TickOut F P)) :
    countEventsOut s (o :: tr) = outEventCount s o + countEventsOut s tr := by
  simp [countEventsOut]

/-- Found count of a persistent-pool monitor trace, tick by tick. -/
theorem countFoundOut_cons (s : String) {F P : Type} (o : TickOut F P)
    (tr : List (TickOut F P)) :
    countFoundOut s (o :: tr) =
      (if outFound s o then 1 else 0) + countFoundOut s tr := by
  by_cases h : outFound s o <;> simp [countFoundOut, List.filter_cons, h] <;>
    omega

/-- Case analysis of a completed persistent-pool monitor tick: either no
cycle was found (no event, seen-set unchanged), or a cycle with signature `k`
was found and either it was suppressed (`k` already seen; no event, seen-set
unchanged) or it was reported (`k` new; `k` joins the seen-set and exactly
one event with key `k` is emitted). -/
theorem arb_tick_ok_cases {F : Type} [LinearOrderedAddCommGroup F]
    (negLog : Rat → F) (expNeg : F → F) (prov : Provider)
    (pools pools2 : List ArbBot.Pool) (seen seen2 : List String)
    (out : TickOut F ArbBot.Pool)
    (ht : ArbBot.monitor_tick negLog expNeg prov pools seen =
      (pools2, seen2, .ok out)) :
    (out.cycleKey = none ∧ out.events = [] ∧ seen2 = seen) ∨
    (∃ k, out.cycleKey = some k ∧
      ((k ∈ seen ∧ seen2 = seen ∧ out.events = []) ∨
       (k ∉ seen ∧ seen2 = addSeen seen k ∧
         ∃ g, out.events = [⟨k, g⟩]))) := by
  unfold ArbBot.monitor_tick at ht
  dsimp only at ht
  split at ht
  · exact absurd ht (by simp)
  · split at ht
    · exact absurd ht (by simp)
    · split at ht
      · simp only [Prod.mk.injEq] at ht
        obtain ⟨h0, h1, h2⟩ := ht
        subst h1
        injection h2 with h2
        subst h2
        exact .inl ⟨rfl, rfl, rfl⟩
      · split at ht
        · rename_i hmem
          simp only [Prod.mk.injEq] at ht
          obtain ⟨h0, h1, h2⟩ := ht
          subst h1
          injection h2 with h2
          subst h2
          exact .inr ⟨_, rfl, .inl ⟨hmem, rfl, rfl⟩⟩
        · rename_i hmem
          split at ht
          · exact absurd ht (by simp)
          · simp only [Prod.mk.injEq] at ht
            obtain ⟨h0, h1, h2⟩ := ht
            subst h1
            injection h2 with h2
            subst h2
            exact .inr ⟨_, rfl, .inr ⟨hmem, rfl, _, rfl⟩⟩

/-- C6: deduplication in both monitors.  Over any discovery-monitor run
without failed ticks, the number of opportunity events emitted for a
signature `s` is: one per tick on which the detector reported `s` when
verbose mode is on; exactly one in total (consecutive repeats included) when
verbose mode is off and `s` was not already in the seen-set.  Over any
persistent-pool monitor run (which has no verbose mode), the events emitted
for `s` are likewise exactly one in total when `s` starts outside the
seen-set, and none otherwise. -/
theorem C6_dedup_one_event_per_signature {F : Type}
    [LinearOrderedAddCommGroup F] (negLog : Rat → F) (expNeg : F → F)
    (verbose : Bool) (s : String) :
    (∀ (n : Nat) (provs : Nat → Provider) (seen : List String),
      TickRes.exc ∉ DiscBot.monitor negLog expNeg verbose provs n seen →
      countEvents s (DiscBot.monitor negLog expNeg verbose provs n seen) =
        (if verbose = true then
          countFound s (DiscBot.monitor negLog expNeg verbose provs n seen)
        else if s ∈ seen then 0
        else
          min 1 (countFound s
            (DiscBot.monitor negLog expNeg verbose provs n seen)))) ∧
    (∀ (n : Nat) (provs : Nat → Provider) (pools : List ArbBot.Pool)
      (seen : List String),
      countEventsOut s
          (ArbBot.monitor_arbitrage negLog expNeg provs n pools seen) =
        (if s ∈ seen then 0
        else
          min 1 (countFoundOut s
            (ArbBot.monitor_arbitrage negLog expNeg provs n pools seen)))) := by
  constructor
  · intro n
    induction n with
    | zero =>
      intro provs seen _
      simp [DiscBot.monitor, countEvents, countFound]
    | succ n ih =>
      intro provs seen hexc
      rcases ht : DiscBot.monitor_tick negLog expNeg verbose (provs 0) seen
        with ⟨seen2, res⟩
      cases res with
      | stuck =>
        exact absurd
          (show (DiscBot.monitor_tick negLog expNeg verbose (provs 0)
            seen).2 = .stuck by rw [ht])
          (disc_tick_not_stuck negLog expNeg verbose (provs 0) seen)
      | exc => rw [DiscBot.monitor, ht] at hexc; simp at hexc
      | ok out =>
        rw [DiscBot.monitor, ht] at hexc ⊢
        simp only [List.mem_cons] at hexc
        have hexc' : TickRes.exc ∉ DiscBot.monitor negLog expNeg verbose
            (fun k => provs (k + 1)) n seen2 := fun hm => hexc (.inr hm)
        have ihr := ih (fun k => provs (k + 1)) seen2 hexc'
        rcases monitor_tick_ok_cases negLog expNeg verbose (provs 0) seen seen2
            out ht with ⟨hk, hev, hseen⟩ | ⟨k, hk, hcase⟩
        · rw [hseen] at ihr
          simp only [countEvents_cons, countFound_cons, tickEventCount,
            tickFound, hk, hev]
          simpa [hseen] using ihr
        · rcases hcase with ⟨hbr, hseen, g, hev⟩ | ⟨hmem, hverb, hseen, hev⟩
          · -- reporting branch taken: one event with key k, k joins the seen-set
            rw [hseen] at ihr ⊢
            simp only [countEvents_cons, countFound_cons, tickEventCount,
              tickFound, hk, hev]
            by_cases hks : k = s
            · rw [hks] at ihr hbr
              cases hv : verbose with
              | true =>
                rw [hv] at ihr
                simp [ihr, hks]
              | false =>
                rw [hv] at ihr
                simp only [Bool.false_eq_true, if_false] at ihr
                have hsk : s ∈ addSeen seen s := by
                  rw [mem_addSeen]; exact .inr rfl
                rw [if_pos hsk] at ihr
                have hkns : s ∉ seen := by
                  rcases hbr with h | h
                  · exact h
                  · rw [hv] at h; cases h
                simp [ihr, hkns, hks]
            · cases hv : verbose with
              | true =>
                rw [hv] at ihr
                simp [ihr, hks]
              | false =>
                rw [hv] at ihr
                have hmm : (s ∈ addSeen seen k) ↔ s ∈ seen := by
                  rw [mem_addSeen]
                  constructor
                  · rintro (h | h)
                    · exact h
                    · exact absurd h.symm hks
                  · exact fun h => .inl h
                by_cases hs : s ∈ seen
                · rw [if_pos (hmm.mpr hs)] at ihr
                  simp [ihr, hks, hs]
                · rw [if_neg (fun hc => hs (hmm.mp hc))] at ihr
                  simp [ihr, hks, hs]
          · -- suppressed: k already seen and verbose off
            rw [hseen] at ihr ⊢
            rw [hverb] at ihr ⊢
            simp only [countEvents_cons, countFound_cons, tickEventCount,
              tickFound, hk, hev]
            by_cases hks : k = s
            · have hms : s ∈ seen := by rw [← hks]; exact hmem
              rw [if_pos hms] at ihr ⊢
              simpa using ihr
            · by_cases hs : s ∈ seen
              · rw [if_pos hs] at ihr ⊢
                simpa using ihr
              · rw [if_neg hs] at ihr ⊢
                simp [ihr, hks]
  · intro n
    induction n with
    | zero =>
      intro provs pools seen
      simp [ArbBot.monitor_arbitrage, countEventsOut, countFoundOut]
    | succ n ih =>
      intro provs pools seen
      rcases ht : ArbBot.monitor_tick negLog expNeg (provs 0) pools seen
        with ⟨pools2, seen2, res⟩
      cases res with
      | exc =>
        rw [ArbBot.monitor_arbitrage, ht]
        simp [countEventsOut, countFoundOut]
      | stuck =>
        rw [ArbBot.monitor_arbitrage, ht]
        simp [countEventsOut, countFoundOut]
      | ok out =>
        rw [ArbBot.monitor_arbitrage, ht]
        have ihr := ih (fun k => provs (k + 1)) pools2 seen2
        rcases arb_tick_ok_cases negLog expNeg (provs 0) pools pools2 seen
            seen2 out ht with ⟨hk, hev, hseen⟩ | ⟨k, hk, hcase⟩
        · rw [hseen] at ihr ⊢
          simp only [countEventsOut_cons, countFoundOut_cons, outEventCount,
            outFound, hk, hev]
          simpa using ihr
        · rcases hcase with ⟨hmem, hseen, hev⟩ | ⟨hmem, hseen, g, hev⟩
          · -- suppressed: k already seen
            rw [hseen] at ihr ⊢
            simp only [countEventsOut_cons, countFoundOut_cons, outEventCount,
              outFound, hk, hev]
            by_cases hks : k = s
            · have hms : s ∈ seen := by rw [← hks]; exact hmem
              rw [if_pos hms] at ihr ⊢
              simpa using ihr
            · by_cases hs : s ∈ seen
              · rw [if_pos hs] at ihr ⊢
                simpa using ihr
              · rw [if_neg hs] at ihr ⊢
                simp [ihr, hks]
          · -- reporting branch: one event with key k, k joins the seen-set
            rw [hseen] at ihr ⊢
            simp only [countEventsOut_cons, countFoundOut_cons, outEventCount,
              outFound, hk, hev]
            by_cases hks : k = s
            · rw [hks] at ihr hmem
              have hsk : s ∈ addSeen seen s := by
                rw [mem_addSeen]; exact .inr rfl
              rw [if_pos hsk] at ihr
              simp [ihr, hmem, hks]
            · have hmm : (s ∈ addSeen seen k) ↔ s ∈ seen := by
                rw [mem_addSeen]
                constructor
                · rintro (h | h)
                  · exact h
                  · exact absurd h.symm hks
                · exact fun h => .inl h
              by_cases hs : s ∈ seen
              · rw [if_pos (hmm.mpr hs)] at ihr
                simp [ihr, hks, hs]
              · rw [if_neg (fun hc => hs (hmm.mp hc))] at ihr
                simp [ihr, hks, hs]

/-- The discovery build against `provOk`, evaluated. -/
theorem provOk_build :
    DiscBot.build_graph negLogZ provOk [DiscBot.mkPool "P"] =
      .ok ⟨[prOk], ["A", "B"], edgesOk, callsOk⟩ := by
  norm_num [DiscBot.build_graph, DiscBot.build_fold, DiscBot.Pool.update,
    DiscBot.mkPool, provOk, DiscBot.fetch_token_info, DiscBot.scaleReserve,
    DiscBot.Pool.price0_to_1, DiscBot.Pool.price1_to_0, insertNode, prOk,
    negLogZ, edgesOk, callsOk]
  decide

/-- A discovery tick against `provOk` with an empty seen-set reports the
cycle. -/
theorem provOk_tick_fresh :
    DiscBot.monitor_tick negLogZ expNegZ false provOk ([] : List String) =
      ([keyBAB], .ok ⟨["A", "B"], edgesOk, callsOk, some keyBAB,
        [⟨keyBAB, 1⟩]⟩) := by
  have hf : DiscBot.find_negative_cycle ["A", "B"] edgesOk =
      some (["B", "A", "B"], [prOk, prOk]) := by decide
  have hg : cycle_gain expNegZ edgesOk ["B", "A", "B"] = some 1 := by decide
  simp only [DiscBot.monitor_tick, show provOk.poolAddresses = ["P"] from rfl,
    List.map_cons, List.map_nil, provOk_build, hf, hg, addSeen, keyBAB]
  simp [keyBAB]

/-- A discovery tick against `provOk` with the cycle already seen emits no
event. -/
theorem provOk_tick_seen :
    DiscBot.monitor_tick negLogZ expNegZ false provOk [keyBAB] =
      ([keyBAB], .ok ⟨["A", "B"], edgesOk, callsOk, some keyBAB, []⟩) := by
  have hf : DiscBot.find_negative_cycle ["A", "B"] edgesOk =
      some (["B", "A", "B"], [prOk, prOk]) := by decide
  simp only [DiscBot.monitor_tick, show provOk.poolAddresses = ["P"] from rfl,
    List.map_cons, List.map_nil, provOk_build, hf, keyBAB]
  simp [keyBAB]

/-- Two discovery ticks against the same `provOk` world: the same cycle is
found on both consecutive ticks, and (verbose off) only the first emits an
event. -/
theorem provOk_disc_trace :
    DiscBot.monitor negLogZ expNegZ false (fun _ => provOk) 2 [] =
      [.ok ⟨["A", "B"], edgesOk, callsOk, some keyBAB, [⟨keyBAB, 1⟩]⟩,
       .ok ⟨["A", "B"], edgesOk, callsOk, some keyBAB, []⟩] := by
  simp only [DiscBot.monitor, show ∀ k : Nat, (fun _ => provOk) k = provOk from
    fun _ => rfl, provOk_tick_fresh, provOk_tick_seen]

/-- The persistent-pool build against `provOk` from a fresh pool,
evaluated. -/
theorem arbOk_build :
    ArbBot.build_rate_graph negLogZ provOk [ArbBot.mkPool "P"] =
      .ok ⟨[arbPrOk], ["A", "B"], arbEdgesOk, callsOk⟩ := by
  norm_num [ArbBot.build_rate_graph, ArbBot.build_fold,
    ArbBot.Pool.update_tokens_and_reserves, ArbBot.fetch_token_info,
    ArbBot.mkPool, provOk, ArbBot.Pool.price_token0_to_token1,
    ArbBot.Pool.price_token1_to_token0, insertNode, arbPrOk, negLogZ,
    arbEdgesOk, callsOk]
  decide

/-- The persistent-pool build against `provOk` from the already-resolved
pool, evaluated: only the reserve refresh call is made. -/
theorem arbOk_build2 :
    ArbBot.build_rate_graph negLogZ provOk [arbPrOk] =
      .ok ⟨[arbPrOk], ["A", "B"], arbEdgesOk, callsOk2⟩ := by
  norm_num [ArbBot.build_rate_graph, ArbBot.build_fold,
    ArbBot.Pool.update_tokens_and_reserves, ArbBot.fetch_token_info,
    provOk, ArbBot.Pool.price_token0_to_token1,
    ArbBot.Pool.price_token1_to_token0, insertNode, arbPrOk, negLogZ,
    arbEdgesOk, callsOk2]
  decide

/-- A persistent-pool tick against `provOk` with an empty seen-set reports
the cycle. -/
theorem arbOk_tick_fresh :
    ArbBot.monitor_tick negLogZ expNegZ provOk [ArbBot.mkPool "P"] [] =
      ([arbPrOk], [keyArbBAB],
        .ok ⟨["A", "B"], arbEdgesOk, callsOk, some keyArbBAB,
          [⟨keyArbBAB, 1⟩]⟩) := by
  have hf : ArbBot.find_negative_cycle ["A", "B"] arbEdgesOk =
      some (["B", "A", "B"], [arbPrOk, arbPrOk]) := by decide
  have hg : cycle_gain expNegZ arbEdgesOk ["B", "A", "B"] = some 1 := by
    decide
  simp only [ArbBot.monitor_tick, arbOk_build, hf, hg, addSeen, keyArbBAB]
  simp [keyArbBAB]

/-- A persistent-pool tick against `provOk` with the cycle already seen emits
no event. -/
theorem arbOk_tick_seen :
    ArbBot.monitor_tick negLogZ expNegZ provOk [arbPrOk] [keyArbBAB] =
      ([arbPrOk], [keyArbBAB],
        .ok ⟨["A", "B"], arbEdgesOk, callsOk2, some keyArbBAB, []⟩) := by
  have hf : ArbBot.find_negative_cycle ["A", "B"] arbEdgesOk =
      some (["B", "A", "B"], [arbPrOk, arbPrOk]) := by decide
  simp only [ArbBot.monitor_tick, arbOk_build2, hf, keyArbBAB]
  simp [keyArbBAB]

/-- Two persistent-pool ticks against the same `provOk` world: the same cycle
is found on both consecutive ticks and only the first emits an event. -/
theorem arbOk_trace :
    ArbBot.monitor_arbitrage negLogZ expNegZ (fun _ => provOk) 2
      [ArbBot.mkPool "P"] [] =
      [⟨["A", "B"], arbEdgesOk, callsOk, some keyArbBAB, [⟨keyArbBAB, 1⟩]⟩,
       ⟨["A", "B"], arbEdgesOk, callsOk2, some keyArbBAB, []⟩] := by
  simp only [ArbBot.monitor_arbitrage, show ∀ k : Nat, (fun _ => provOk) k =
    provOk from fun _ => rfl, arbOk_tick_fresh, arbOk_tick_seen]

/-- Witness for C6 at concrete two-tick runs of both monitors: each finds the
same signature on both consecutive ticks and emits exactly one event for it. -/
theorem C6_dedup_one_event_per_signature_witness :
    TickRes.exc ∉ DiscBot.monitor negLogZ expNegZ false (fun _ => provOk) 2 [] ∧
    countFound keyBAB (DiscBot.monitor negLogZ expNegZ false (fun _ => provOk) 2 []) = 2 ∧
    countEvents keyBAB (DiscBot.monitor negLogZ expNegZ false (fun _ => provOk) 2 []) =
      (if false = true then
        countFound keyBAB (DiscBot.monitor negLogZ expNegZ false (fun _ => provOk) 2 [])
      else if keyBAB ∈ ([] : List String) then 0
      else
        min 1 (countFound keyBAB
          (DiscBot.monitor negLogZ expNegZ false (fun _ => provOk) 2 []))) ∧
    countFoundOut keyArbBAB (ArbBot.monitor_arbitrage negLogZ expNegZ
      (fun _ => provOk) 2 [ArbBot.mkPool "P"] []) = 2 ∧
    countEventsOut keyArbBAB (ArbBot.monitor_arbitrage negLogZ expNegZ
      (fun _ => provOk) 2 [ArbBot.mkPool "P"] []) =
      (if keyArbBAB ∈ ([] : List String) then 0
      else
        min 1 (countFoundOut keyArbBAB (ArbBot.monitor_arbitrage negLogZ
          expNegZ (fun _ => provOk) 2 [ArbBot.mkPool "P"] []))) := by
  have h1 : TickRes.exc ∉ DiscBot.monitor negLogZ expNegZ false
      (fun _ => provOk) 2 [] := by rw [provOk_disc_trace]; simp
  refine ⟨h1, ?_, (C6_dedup_one_event_per_signature negLogZ expNegZ false
    keyBAB).1 2 (fun _ => provOk) [] h1, ?_,
    (C6_dedup_one_event_per_signature negLogZ expNegZ false keyArbBAB).2 2
      (fun _ => provOk) [ArbBot.mkPool "P"] []⟩
  · rw [provOk_disc_trace]
    simp [countFound, tickFound]
  · rw [arbOk_trace]
    simp [countFoundOut, outFound]

/-- The scenario-A build, evaluated against the real `-ln` weight function. -/
theorem buildA_eq : ArbBot.build_rate_graphR provA [pA1, pA2, pA3] = .ok bA := by
  norm_num [ArbBot.build_rate_graphR, ArbBot.build_rate_graph,
    ArbBot.build_fold, ArbBot.Pool.update_tokens_and_reserves, provA,
    pA1, pA2, pA3, pA1r, pA2r, pA3r, bA, ArbBot.negLogR,
    ArbBot.Pool.price_token0_to_token1, ArbBot.Pool.price_token1_to_token0,
    insertNode, String.reduceEq]
  simp [String.reduceEq]
  norm_num [String.reduceEq]

/-- C1: the reported gain is computed from the first edge of the cycle only.
On the scenario-A graph (fee-adjusted prices 1.994, 1.4955, 0.3988 around
`A -> B -> C -> A`), the code's gain for the reported cycle evaluates to
`1.994` (the first hop's price alone), while the specification's authoritative
formula `exp (-S)` over the whole cycle gives the product of all three
prices — so the emitted estimate differs from the specified one. -/
theorem C1_gain_uses_only_first_edge :
    ArbBot.build_rate_graphR provA [pA1, pA2, pA3] = .ok bA ∧
    cycle_gain ArbBot.expNegR bA.edges cycA = some ((997 : Real) / 500) ∧
    spec_cycle_gain bA.edges cycA =
      some (((997 : Real) / 500) * (2991 / 2000) * (997 / 2500)) ∧
    cycle_gain ArbBot.expNegR bA.edges cycA ≠ spec_cycle_gain bA.edges cycA := by
  have h2 : cycle_gain ArbBot.expNegR bA.edges cycA =
      some ((997 : Real) / 500) := by
    simp only [cycle_gain, cycA, bA, ArbBot.expNegR, List.find?]
    norm_num
    rw [Real.exp_log (by norm_num)]
  have hsum : cycleWeightSum bA.edges cycA =
      some (-Real.log ((997 : Rat) / 500 : Real) +
        (-Real.log ((2991 : Rat) / 2000 : Real) +
          (-Real.log ((997 : Rat) / 2500 : Real) + 0))) := by
    unfold cycA
    rw [cycleWeightSum]
    simp [bA, List.find?, String.reduceBEq, cycleWeightSum]
  have h3 : spec_cycle_gain bA.edges cycA =
      some (((997 : Real) / 500) * (2991 / 2000) * (997 / 2500)) := by
    rw [spec_cycle_gain, hsum]
    dsimp only [Option.map]
    rw [show (-(-Real.log ((997 : Rat) / 500 : Real) +
        (-Real.log ((2991 : Rat) / 2000 : Real) +
          (-Real.log ((997 : Rat) / 2500 : Real) + 0)))) =
        Real.log ((997 : Rat) / 500 : Real) +
        Real.log ((2991 : Rat) / 2000 : Real) +
        Real.log ((997 : Rat) / 2500 : Real) by ring]
    rw [Real.exp_add, Real.exp_add, Real.exp_log (by norm_num),
      Real.exp_log (by norm_num), Real.exp_log (by norm_num)]
    norm_num
  refine ⟨buildA_eq, h2, h3, ?_⟩
  rw [h2, h3]
  intro hc
  injection hc with hc
  rw [div_mul_eq_mul_div, div_mul_eq_mul_div] at hc
  nlinarith [hc]

namespace BF

/-- `getD` after `set`. -/
theorem getD_set {α : Type} (l : List α) (i j : Nat) (a d : α) :
    (l.set i a).getD j d =
      if i = j ∧ i < l.length then a else l.getD j d := by
  rw [List.getD_eq_get?, List.getD_eq_get?, List.get?_set]
  by_cases hij : i = j
  · subst hij
    by_cases hi : i < l.length
    · simp [hi, List.get?_eq_get hi]
    · rw [List.get?_eq_none.mpr (Nat.le_of_not_lt hi)]
      simp [hi]
  · simp [hij]

/-- `getD` of `replicate`. -/
theorem getD_replicate {α : Type} (n i : Nat) (a d : α) :
    (List.replicate n a).getD i d = if i < n then a else d := by
  rw [List.getD_eq_get?]
  by_cases hi : i < n
  · rw [List.get?_eq_get (by simpa using hi)]
    simp [List.get_replicate, hi]
  · rw [List.get?_eq_none.mpr (by simpa using Nat.le_of_not_lt hi)]
    simp [hi]

variable {F P : Type} [LinearOrderedAddCommGroup F]

/-- Concatenation of walks. -/
theorem Walk.append {es : List (Edge F P)} {a b c : Token}
    {l1 l2 : List (Edge F P)} (h1 : Walk es a b l1) (h2 : Walk es b c l2) :
    Walk es a c (l1 ++ l2) := by
  induction h1 with
  | nil => simpa using h2
  | cons e he h ih => exact Walk.cons e he (ih h2)

/-- One-edge extension of a walk at its end. -/
theorem Walk.snoc {es : List (Edge F P)} {a : Token} {l : List (Edge F P)}
    {e : Edge F P} (h : Walk es a e.u l) (he : e ∈ es) :
    Walk es a e.v (l ++ [e]) :=
  h.append (Walk.cons e he (Walk.nil e.v))

/-- Weight of a concatenation. -/
theorem weight_append (l1 l2 : List (Edge F P)) :
    weight (F := F) (l1 ++ l2) = weight l1 + weight l2 := by
  simp [weight]

/-- Weight of the empty walk. -/
theorem weight_nil : weight (F := F) (P := P) [] = 0 := rfl

/-- An empty walk stays put. -/
theorem Walk.nil_inv {es : List (Edge F P)} {a b : Token}
    (h : Walk es a b []) : a = b := by
  cases h; rfl

/-- A nonempty walk decomposes at its last edge. -/
theorem Walk.snoc_inv {es : List (Edge F P)} :
    ∀ {l : List (Edge F P)} {s t : Token}, Walk es s t l → l ≠ [] →
    ∃ l' e, l = l' ++ [e] ∧ Walk es s e.u l' ∧ e ∈ es ∧ e.v = t := by
  intro l
  induction l with
  | nil => intro s t _ hne; exact absurd rfl hne
  | cons e l ih =>
    intro s t h _
    cases h with
    | cons _ he h' =>
      cases l with
      | nil => exact ⟨[], e, rfl, Walk.nil e.u, he, (Walk.nil_inv h').symm ▸ rfl⟩
      | cons e1 l1 =>
        obtain ⟨l'', e2, heq, hw, he2, hv2⟩ := ih h' (by simp)
        exact ⟨e :: l'', e2, by simp [heq], Walk.cons e he hw, he2, hv2⟩

end BF

namespace BF

variable {F P : Type} [LinearOrderedAddCommGroup F]

/-- One relaxation step keeps the distance array's length. -/
theorem relaxEdge_dist_length (idx : Token → Nat) (st : State F P)
    (e : Edge F P) : ((relaxEdge idx st e).1).dist.length = st.dist.length := by
  simp only [relaxEdge]
  split <;> simp

/-- One relaxation step keeps the predecessor array's length. -/
theorem relaxEdge_parent_length (idx : Token → Nat) (st : State F P)
    (e : Edge F P) :
    ((relaxEdge idx st e).1).parent.length = st.parent.length := by
  simp only [relaxEdge]
  split <;> simp

/-- Relaxation never increases a distance. -/
theorem relaxEdge_dist_le (idx : Token → Nat) (st : State F P) (e : Edge F P)
    (i : Nat) :
    ((relaxEdge idx st e).1).dist.getD i 0 ≤ st.dist.getD i 0 := by
  simp only [relaxEdge]
  split
  · rename_i hlt
    simp only
    rw [getD_set]
    split
    · rename_i hc
      obtain ⟨hc1, _⟩ := hc
      rw [← hc1]
      exact le_of_lt hlt
    · exact le_rfl
  · exact le_rfl

/-- A whole pass never increases a distance. -/
theorem foldlS_dist_le (idx : Token → Nat) :
    ∀ (l : List (Edge F P)) (st : State F P) (i : Nat),
    (List.foldl (fun s e => (relaxEdge idx s e).1) st l).dist.getD i 0 ≤
      st.dist.getD i 0 := by
  intro l
  induction l with
  | nil => intro st i; exact le_rfl
  | cons e l ih =>
    intro st i
    exact le_trans (ih _ i) (relaxEdge_dist_le idx st e i)

/-- A whole pass keeps the distance array's length. -/
theorem foldlS_dist_length (idx : Token → Nat) :
    ∀ (l : List (Edge F P)) (st : State F P),
    (List.foldl (fun s e => (relaxEdge idx s e).1) st l).dist.length =
      st.dist.length := by
  intro l
  induction l with
  | nil => intro st; rfl
  | cons e l ih =>
    intro st
    rw [List.foldl_cons, ih, relaxEdge_dist_length]

/-- A whole pass keeps the predecessor array's length. -/
theorem foldlS_parent_length (idx : Token → Nat) :
    ∀ (l : List (Edge F P)) (st : State F P),
    (List.foldl (fun s e => (relaxEdge idx s e).1) st l).parent.length =
      st.parent.length := by
  intro l
  induction l with
  | nil => intro st; rfl
  | cons e l ih =>
    intro st
    rw [List.foldl_cons, ih, relaxEdge_parent_length]

/-- Iterated passes never increase a distance. -/
theorem passIter_dist_le (idx : Token → Nat) (edges : List (Edge F P)) :
    ∀ (k : Nat) (st : State F P) (i : Nat),
    (passIter idx edges k st).dist.getD i 0 ≤ st.dist.getD i 0 := by
  intro k
  induction k with
  | zero => intro st i; exact le_rfl
  | succ k ih =>
    intro st i
    exact le_trans (foldlS_dist_le idx edges _ i) (ih st i)

/-- After a pass over `l`, every edge of `l` satisfies the relaxed bound
with respect to the distances at the start of the pass. -/
theorem pass_bound (idx : Token → Nat) :
    ∀ (l : List (Edge F P)) (st : State F P),
    (∀ e ∈ l, idx e.v < st.dist.length) →
    ∀ e ∈ l,
    (List.foldl (fun s e => (relaxEdge idx s e).1) st l).dist.getD (idx e.v) 0 ≤
      st.dist.getD (idx e.u) 0 + e.w := by
  intro l
  induction l with
  | nil => intro st _ e he; cases he
  | cons e' l ih =>
    intro st hlen e he
    rw [List.foldl_cons]
    rcases List.mem_cons.mp he with rfl | hel
    · have h1 : ((relaxEdge idx st e).1).dist.getD (idx e.v) 0 ≤
          st.dist.getD (idx e.u) 0 + e.w := by
        simp only [relaxEdge]
        split
        · rename_i hlt
          simp only
          rw [getD_set]
          rw [if_pos ⟨rfl, hlen e (by simp)⟩]
        · rename_i hlt
          exact le_of_not_lt hlt
      exact le_trans (foldlS_dist_le idx l _ (idx e.v)) h1
    · have hlen' : ∀ e2 ∈ l, idx e2.v < ((relaxEdge idx st e').1).dist.length := by
        intro e2 he2
        rw [relaxEdge_dist_length]
        exact hlen e2 (by simp [he2])
      exact le_trans (ih _ hlen' e hel)
        (add_le_add_right (relaxEdge_dist_le idx st e' (idx e.u)) e.w)

end BF

namespace BF

variable {F P : Type} [LinearOrderedAddCommGroup F]

/-- The state computed by the flagged pass is the flagless pass. -/
theorem pass_fold_fst (idx : Token → Nat) :
    ∀ (l : List (Edge F P)) (st : State F P) (b : Bool),
    (List.foldl (fun (acc : State F P × Bool) e =>
      let r := relaxEdge idx acc.1 e
      (r.1, acc.2 || r.2)) (st, b) l).1 =
    List.foldl (fun s e => (relaxEdge idx s e).1) st l := by
  intro l
  induction l with
  | nil => intro st b; rfl
  | cons e l ih => intro st b; exact ih _ _

/-- `pass` computes the flagless pass. -/
theorem pass_fst (idx : Token → Nat) (edges : List (Edge F P))
    (st : State F P) : (pass idx edges st).1 = passS idx edges st :=
  pass_fold_fst idx edges st false

/-- A flagged fold that starts with the flag up keeps it up. -/
theorem pass_fold_flag_mono (idx : Token → Nat) :
    ∀ (l : List (Edge F P)) (st : State F P),
    (List.foldl (fun (acc : State F P × Bool) e =>
      let r := relaxEdge idx acc.1 e
      (r.1, acc.2 || r.2)) (st, true) l).2 = true := by
  intro l
  induction l with
  | nil => intro st; rfl
  | cons e l ih =>
    intro st
    rw [List.foldl_cons]
    simpa using ih ((relaxEdge idx st e).1)

/-- A pass that reports no update relaxed nothing and left the state
unchanged. -/
theorem pass_false_spec (idx : Token → Nat) :
    ∀ (l : List (Edge F P)) (st : State F P),
    (List.foldl (fun (acc : State F P × Bool) e =>
      let r := relaxEdge idx acc.1 e
      (r.1, acc.2 || r.2)) (st, false) l).2 = false →
    (∀ e ∈ l, ¬ (st.dist.getD (idx e.u) 0 + e.w < st.dist.getD (idx e.v) 0)) ∧
    List.foldl (fun s e => (relaxEdge idx s e).1) st l = st := by
  intro l
  induction l with
  | nil => intro st _; exact ⟨fun e he => absurd he (List.not_mem_nil e), rfl⟩
  | cons e l ih =>
    intro st hflag
    rw [List.foldl_cons] at hflag
    by_cases hc : st.dist.getD (idx e.u) 0 + e.w < st.dist.getD (idx e.v) 0
    · exfalso
      have hr : relaxEdge idx st e =
          (⟨st.dist.set (idx e.v) (st.dist.getD (idx e.u) 0 + e.w),
            st.parent.set (idx e.v) (some (idx e.u, e.pool))⟩, true) := by
        simp only [relaxEdge]
        rw [if_pos hc]
      rw [hr] at hflag
      simp only [Bool.false_or] at hflag
      rw [pass_fold_flag_mono] at hflag
      cases hflag
    · have hr : relaxEdge idx st e = (st, false) := by
        simp only [relaxEdge]
        rw [if_neg hc]
      rw [hr] at hflag
      simp only [Bool.false_or] at hflag
      obtain ⟨h1, h2⟩ := ih st hflag
      refine ⟨?_, ?_⟩
      · intro e2 he2
        rcases List.mem_cons.mp he2 with rfl | he2
        · exact hc
        · exact h1 e2 he2
      · rw [List.foldl_cons, hr]
        exact h2

/-- Passes commute with one extra leading pass. -/
theorem passIter_comm (idx : Token → Nat) (edges : List (Edge F P)) :
    ∀ (k : Nat) (st : State F P),
    passIter idx edges k (passS idx edges st) =
      passS idx edges (passIter idx edges k st) := by
  intro k
  induction k with
  | zero => intro st; rfl
  | succ k ih =>
    intro st
    show passS idx edges (passIter idx edges k (passS idx edges st)) = _
    rw [ih st]
    rfl

/-- The early-exit relaxation loop of arbitrage_bot.py runs some number
`m ≤ k` of passes, and either it used all `k` or it stopped at a state whose
next pass relaxes nothing. -/
theorem relaxLoopEarly_spec (idx : Token → Nat) (edges : List (Edge F P)) :
    ∀ (k : Nat) (st : State F P),
    ∃ m, m ≤ k ∧
      (relaxLoopEarly idx edges k st).1 = passIter idx edges m st ∧
      (relaxLoopEarly idx edges k st).2 ≤ k ∧
      (m = k ∨
        (pass idx edges (relaxLoopEarly idx edges k st).1).2 = false) := by
  intro k
  induction k with
  | zero => intro st; exact ⟨0, le_rfl, rfl, le_rfl, .inl rfl⟩
  | succ k ih =>
    intro st
    by_cases hf : (pass idx edges st).2 = true
    · obtain ⟨m, hm, hst, hcnt, hlast⟩ := ih (pass idx edges st).1
      refine ⟨m + 1, by omega, ?_, ?_, ?_⟩
      · show (relaxLoopEarly idx edges (k + 1) st).1 = _
        unfold relaxLoopEarly
        rw [if_pos hf]
        simp only
        rw [hst, pass_fst, passIter_comm]
        rfl
      · unfold relaxLoopEarly
        rw [if_pos hf]
        simpa using hcnt
      · rcases hlast with rfl | hfl
        · exact .inl rfl
        · refine .inr ?_
          unfold relaxLoopEarly
          rw [if_pos hf]
          simpa using hfl
    · rw [Bool.not_eq_true] at hf
      refine ⟨0, Nat.zero_le _, ?_, ?_, .inr ?_⟩
      · unfold relaxLoopEarly
        rw [if_neg (by simp [hf])]
        simp only [passIter]
        rw [pass_fst]
        exact (pass_false_spec idx edges st (by
          have := hf
          unfold pass at this
          exact this)).2
      · unfold relaxLoopEarly
        rw [if_neg (by simp [hf])]
        simp
      · unfold relaxLoopEarly
        rw [if_neg (by simp [hf])]
        simp only
        rw [pass_fst]
        have h2 := (pass_false_spec idx edges st (by
          have := hf
          unfold pass at this
          exact this)).2
        rw [show passS idx edges st = st from h2]
        exact hf

/-- The fixed-count relaxation loop of arbitrage_discovery_bot.py is exactly
`k` passes. -/
theorem relaxLoop_eq_passIter (idx : Token → Nat) (edges : List (Edge F P)) :
    ∀ (k : Nat) (st : State F P),
    relaxLoop idx edges k st = passIter idx edges k st := by
  intro k
  induction k with
  | zero => intro st; rfl
  | succ k ih =>
    intro st
    unfold relaxLoop
    rw [List.range_succ, List.foldl_append]
    simp only [List.foldl_cons, List.foldl_nil]
    unfold relaxLoop at ih
    rw [ih st]
    rw [pass_fst]
    rfl

end BF

namespace BF

variable {F P : Type} [LinearOrderedAddCommGroup F]

/-- `getD` at a member's index returns the member. -/
theorem getD_indexOf {α : Type} [DecidableEq α] (l : List α) (x d : α)
    (h : x ∈ l) : l.getD (l.indexOf x) d = x := by
  rw [List.getD_eq_get?, List.get?_eq_get (List.indexOf_lt_length.mpr h)]
  simp [List.indexOf_get]

/-- The initial state is good: zero distances are empty-walk weights and there
are no predecessor entries. -/
theorem goodState_init (nodes : List Token) (edges : List (Edge F P)) :
    GoodState nodes edges (init F P nodes.length) := by
  refine ⟨by simp [init], by simp [init], ?_, ?_⟩
  · intro t ht
    refine ⟨t, [], ht, Walk.nil t, ?_⟩
    have h0 : (init F P nodes.length).dist.getD (nodes.indexOf t) 0 = (0 : F) := by
      simp only [init]
      rw [getD_replicate]
      split <;> rfl
    rw [h0]
    exact weight_nil
  · intro vi ui pl h
    simp only [init] at h
    rw [getD_replicate] at h
    split at h <;> cases h

/-- One relaxation of an edge of the graph preserves goodness of the state. -/
theorem relaxEdge_good (nodes : List Token) (edges : List (Edge F P))
    (hw : Wellformed nodes edges) (e : Edge F P) (he : e ∈ edges)
    (st : State F P) (hg : GoodState nodes edges st) :
    GoodState nodes edges (relaxEdge (fun t => nodes.indexOf t) st e).1 := by
  obtain ⟨hd, hp, h3, h4⟩ := hg
  obtain ⟨hu, hv⟩ := hw e he
  have hui : nodes.indexOf e.u < nodes.length := List.indexOf_lt_length.mpr hu
  have hvi : nodes.indexOf e.v < nodes.length := List.indexOf_lt_length.mpr hv
  simp only [relaxEdge]
  split
  · rename_i hlt
    show GoodState nodes edges
      ⟨st.dist.set (nodes.indexOf e.v) (st.dist.getD (nodes.indexOf e.u) 0 + e.w),
        st.parent.set (nodes.indexOf e.v) (some (nodes.indexOf e.u, e.pool))⟩
    refine ⟨by rw [List.length_set]; exact hd, by rw [List.length_set]; exact hp, ?_, ?_⟩
    · intro t ht
      rw [getD_set]
      split
      · rename_i hc
        obtain ⟨hc1, _⟩ := hc
        have htv : e.v = t := (List.indexOf_inj hv ht).mp hc1
        subst htv
        obtain ⟨s, l, hs, hwalk, hwt⟩ := h3 e.u hu
        refine ⟨s, l ++ [e], hs, hwalk.snoc he, ?_⟩
        rw [weight_append, hwt]
        have hse : weight (F := F) [e] = e.w := by simp [weight]
        rw [hse]
      · exact h3 t ht
    · intro vi ui pl hparent
      rw [getD_set] at hparent
      have hdp : st.dist.length = st.parent.length := by rw [hd, hp]
      by_cases hcond : nodes.indexOf e.v = vi ∧ nodes.indexOf e.v < st.parent.length
      · rw [if_pos hcond] at hparent
        simp only [Option.some.injEq, Prod.mk.injEq] at hparent
        obtain ⟨rfl, rfl⟩ := hparent
        obtain ⟨hc1, _⟩ := hcond
        refine ⟨hui, e, he, rfl, hc1, rfl, ?_⟩
        rw [getD_set, getD_set]
        rw [if_pos (show nodes.indexOf e.v = vi ∧
          nodes.indexOf e.v < st.dist.length from ⟨hc1, hd ▸ hvi⟩)]
        split
        · rename_i hc2
          obtain ⟨hc21, _⟩ := hc2
          rw [hc21] at hlt
          have hw0 : e.w < 0 := add_lt_iff_neg_left.mp hlt
          exact (add_le_iff_nonpos_right _).mpr hw0.le
        · exact le_rfl
      · rw [if_neg hcond] at hparent
        obtain ⟨hui', e2, he2, h2u, h2v, h2p, h2ineq⟩ := h4 vi ui pl hparent
        refine ⟨hui', e2, he2, h2u, h2v, h2p, ?_⟩
        rw [getD_set, getD_set]
        have hvneg : ¬(nodes.indexOf e.v = vi ∧
            nodes.indexOf e.v < st.dist.length) := by
          rw [hdp]; exact hcond
        rw [if_neg hvneg]
        split
        · rename_i hc2
          obtain ⟨hc21, _⟩ := hc2
          have hle : st.dist.getD (nodes.indexOf e.u) 0 + e.w ≤ st.dist.getD ui 0 := by
            rw [← hc21]; exact le_of_lt hlt
          exact le_trans (add_le_add_right hle e2.w) h2ineq
        · exact h2ineq
  · exact ⟨hd, hp, h3, h4⟩

/-- A fold of relaxations of graph edges preserves goodness. -/
theorem foldlS_good (nodes : List Token) (edges : List (Edge F P))
    (hw : Wellformed nodes edges) :
    ∀ (l : List (Edge F P)), (∀ e ∈ l, e ∈ edges) → ∀ st : State F P,
    GoodState nodes edges st →
    GoodState nodes edges
      (List.foldl (fun s e => (relaxEdge (fun t => nodes.indexOf t) s e).1) st l) := by
  intro l
  induction l with
  | nil => intro _ st hg; exact hg
  | cons e l ih =>
    intro hsub st hg
    rw [List.foldl_cons]
    exact ih (fun e2 he2 => hsub e2 (by simp [he2])) _
      (relaxEdge_good nodes edges hw e (hsub e (by simp)) st hg)

/-- Any number of relaxation passes preserves goodness. -/
theorem passIter_good (nodes : List Token) (edges : List (Edge F P))
    (hw : Wellformed nodes edges) :
    ∀ (k : Nat) (st : State F P), GoodState nodes edges st →
    GoodState nodes edges (passIter (fun t => nodes.indexOf t) edges k st) := by
  intro k
  induction k with
  | zero => intro st hg; exact hg
  | succ k ih =>
    intro st hg
    simp only [passIter, passS]
    exact foldlS_good nodes edges hw edges (fun _ h => h) _ (ih st hg)

/-- Iterated passes keep the distance array's length. -/
theorem passIter_dist_length (idx : Token → Nat) (edges : List (Edge F P)) :
    ∀ (k : Nat) (st : State F P),
    (passIter idx edges k st).dist.length = st.dist.length := by
  intro k
  induction k with
  | zero => intro st; rfl
  | succ k ih =>
    intro st
    simp only [passIter, passS]
    rw [foldlS_dist_length]
    exact ih st

end BF

namespace BF

variable {F P : Type} [LinearOrderedAddCommGroup F]

/-- Every edge of a walk belongs to the graph. -/
theorem walk_edges_mem {es : List (Edge F P)} {s t : Token}
    {l : List (Edge F P)} (h : Walk es s t l) : ∀ e ∈ l, e ∈ es := by
  induction h with
  | nil => intro e he; cases he
  | cons e2 he2 h ih =>
    intro e he
    rcases List.mem_cons.mp he with rfl | he3
    · exact he2
    · exact ih e he3

/-- A walk's target is the `dest` of its edge list. -/
theorem walk_dest {es : List (Edge F P)} {s t : Token} {l : List (Edge F P)}
    (h : Walk es s t l) : t = dest s l := by
  induction h with
  | nil => rfl
  | cons e he h ih => exact ih

/-- `dest` composes over concatenation. -/
theorem dest_append {F P : Type} (s : Token) (l1 l2 : List (Edge F P)) :
    dest s (l1 ++ l2) = dest (dest s l1) l2 := by
  induction l1 generalizing s with
  | nil => rfl
  | cons e l1 ih =>
    simp only [List.cons_append, dest]
    exact ih e.v

/-- A walk splits at any position. -/
theorem walk_split {es : List (Edge F P)} {s t : Token} {l : List (Edge F P)}
    (h : Walk es s t l) :
    ∀ i, ∃ m, Walk es s m (l.take i) ∧ Walk es m t (l.drop i) := by
  induction h with
  | nil t0 =>
    intro i
    refine ⟨t0, ?_, ?_⟩
    · rw [List.take_nil]; exact Walk.nil t0
    · rw [List.drop_nil]; exact Walk.nil t0
  | cons e he h ih =>
    intro i
    cases i with
    | zero => exact ⟨e.u, Walk.nil e.u, Walk.cons e he h⟩
    | succ i =>
      obtain ⟨m, h1, h2⟩ := ih i
      exact ⟨m, Walk.cons e he h1, h2⟩

/-- A walk starting in the node set stays in the node set. -/
theorem walk_dest_mem {nodes : List Token} {es : List (Edge F P)}
    (hw : Wellformed nodes es) {s t : Token} {l : List (Edge F P)}
    (h : Walk es s t l) : s ∈ nodes → t ∈ nodes := by
  induction h with
  | nil => exact fun hs => hs
  | cons e he h ih => exact fun _ => ih (hw e he).2

/-- After `k` relaxation passes from the all-zero initial state, every node's
distance is at most the weight of any walk into it with at most `k` edges
(which node it started from does not matter: the virtual source gives every
node initial distance 0). -/
theorem passIter_le_walk (nodes : List Token) (edges : List (Edge F P))
    (hw : Wellformed nodes edges) :
    ∀ (k : Nat) (s t : Token) (l : List (Edge F P)), Walk edges s t l →
    l.length ≤ k →
    (passIter (fun x => nodes.indexOf x) edges k
      (init F P nodes.length)).dist.getD (nodes.indexOf t) 0 ≤ weight l := by
  have hinit : ∀ i, (init F P nodes.length).dist.getD i 0 = (0 : F) := by
    intro i
    simp only [init]
    rw [getD_replicate]
    split <;> rfl
  intro k
  induction k with
  | zero =>
    intro s t l hwalk hlen
    have hnil : l = [] := List.length_eq_zero.mp (Nat.le_zero.mp hlen)
    subst hnil
    rw [weight_nil]
    show (init F P nodes.length).dist.getD (nodes.indexOf t) 0 ≤ 0
    rw [hinit]
  | succ k ih =>
    intro s t l hwalk hlen
    by_cases hemp : l = []
    · subst hemp
      rw [weight_nil]
      calc (passIter (fun x => nodes.indexOf x) edges (k + 1)
            (init F P nodes.length)).dist.getD (nodes.indexOf t) 0
          ≤ (init F P nodes.length).dist.getD (nodes.indexOf t) 0 :=
            passIter_dist_le _ edges _ _ _
        _ = 0 := hinit _
    · obtain ⟨l', e, rfl, hw1, hee, hvt⟩ := hwalk.snoc_inv hemp
      subst hvt
      have hse : weight (F := F) (P := P) [e] = e.w := by simp [weight]
      have hlen' : l'.length ≤ k := by
        have : l'.length + 1 ≤ k + 1 := by simpa using hlen
        omega
      have hih := ih s e.u l' hw1 hlen'
      have hlenh : ∀ e2 ∈ edges, (fun x => nodes.indexOf x) e2.v <
          (passIter (fun x => nodes.indexOf x) edges k
            (init F P nodes.length)).dist.length := by
        intro e2 he2
        rw [passIter_dist_length]
        simp only [init, List.length_replicate]
        exact List.indexOf_lt_length.mpr (hw e2 he2).2
      have hb := pass_bound (fun x => nodes.indexOf x) edges _ hlenh e hee
      simp only [passIter, passS]
      rw [weight_append, hse]
      exact le_trans hb (add_le_add_right hih e.w)

end BF

namespace BF

variable {F P : Type} [LinearOrderedAddCommGroup F]

/-- In a graph without negative cycles, any walk between two nodes can be
replaced by one of at most `|nodes| - 1` edges whose weight is no larger:
a longer walk revisits a node (pigeonhole) and the revisited closed subwalk,
having nonnegative weight, can be spliced out. -/
theorem walk_short (nodes : List Token) (edges : List (Edge F P))
    (hw : Wellformed nodes edges) (hnc : NoNegCycle edges) :
    ∀ (n : Nat) (l : List (Edge F P)) (s t : Token), l.length ≤ n →
    s ∈ nodes → Walk edges s t l →
    ∃ l2, Walk edges s t l2 ∧ weight l2 ≤ weight l ∧
      l2.length ≤ nodes.length - 1 := by
  intro n
  induction n with
  | zero =>
    intro l s t hlen hs hwalk
    have hnil : l = [] := List.length_eq_zero.mp (Nat.le_zero.mp hlen)
    subst hnil
    exact ⟨[], hwalk, le_rfl, Nat.zero_le _⟩
  | succ n ih =>
    intro l s t hlen hs hwalk
    by_cases hsmall : l.length ≤ nodes.length - 1
    · exact ⟨l, hwalk, le_rfl, hsmall⟩
    · have hN0 : 0 < nodes.length := List.length_pos.mpr (List.ne_nil_of_mem hs)
      have hN1 : nodes.length < l.length + 1 := by omega
      have key : ∀ a b : Nat, a < b → b ≤ l.length →
          dest s (l.take a) = dest s (l.take b) →
          ∃ l2, Walk edges s t l2 ∧ weight l2 ≤ weight l ∧
            l2.length ≤ nodes.length - 1 := by
        intro a b hab hble hdeq
        obtain ⟨m1, h1, h2⟩ := walk_split hwalk a
        have hm1 : m1 = dest s (l.take a) := walk_dest h1
        obtain ⟨m2, h3, h4⟩ := walk_split h2 (b - a)
        have hm2 : m2 = dest m1 ((l.drop a).take (b - a)) := walk_dest h3
        have htake : l.take b = l.take a ++ (l.drop a).take (b - a) := by
          nth_rewrite 1 [show b = a + (b - a) from by omega]
          exact List.take_add l a (b - a)
        have hm2' : m2 = m1 := by
          rw [hm2, hm1, ← dest_append, ← htake, ← hdeq]
        subst hm2'
        have hmid : 0 ≤ weight ((l.drop a).take (b - a)) := hnc _ _ h3
        have hdrop : (l.drop a).drop (b - a) = l.drop b := by
          rw [List.drop_drop]
          congr 1
          omega
        have hsplit : l =
            l.take a ++ ((l.drop a).take (b - a) ++ (l.drop a).drop (b - a)) := by
          rw [List.take_append_drop, List.take_append_drop]
        have hwl : weight (l.take a ++ (l.drop a).drop (b - a)) ≤ weight l := by
          calc weight (l.take a ++ (l.drop a).drop (b - a))
              = weight (l.take a) + weight ((l.drop a).drop (b - a)) :=
                weight_append _ _
            _ ≤ weight (l.take a) +
                (weight ((l.drop a).take (b - a)) +
                  weight ((l.drop a).drop (b - a))) :=
                add_le_add_left (le_add_of_nonneg_left hmid) _
            _ = weight l := by
                rw [← weight_append, ← weight_append, ← hsplit]
        have hnew : Walk edges s t (l.take a ++ (l.drop a).drop (b - a)) :=
          h1.append h4
        rw [hdrop] at hwl hnew
        have hll : (l.take a ++ l.drop b).length ≤ n := by
          rw [List.length_append, List.length_take, List.length_drop]
          omega
        obtain ⟨l2, hwk2, hwt2, hl2⟩ := ih (l.take a ++ l.drop b) s t hll hs hnew
        exact ⟨l2, hwk2, le_trans hwt2 hwl, hl2⟩
      have hmaps : ∀ i : Fin (l.length + 1),
          dest s (l.take i.1) ∈ nodes.toFinset := by
        intro i
        obtain ⟨m, h1, _⟩ := walk_split hwalk i.1
        rw [List.mem_toFinset, ← walk_dest h1]
        exact walk_dest_mem hw h1 hs
      obtain ⟨i, -, j, -, hij, heq⟩ :=
        Finset.exists_ne_map_eq_of_card_lt_of_maps_to
          (show nodes.toFinset.card <
              (Finset.univ : Finset (Fin (l.length + 1))).card from by
            rw [Finset.card_univ, Fintype.card_fin]
            exact lt_of_le_of_lt (List.toFinset_card_le nodes) hN1)
          (fun i _ => hmaps i)
      have hij' : i.1 ≠ j.1 := fun hh => hij (Fin.ext hh)
      rcases Nat.lt_or_ge i.1 j.1 with hlt | hge
      · exact key i.1 j.1 hlt (by have := j.isLt; omega) heq
      · have hlt2 : j.1 < i.1 := by omega
        exact key j.1 i.1 hlt2 (by have := i.isLt; omega) heq.symm

end BF

namespace BF

variable {F P : Type} [LinearOrderedAddCommGroup F]

/-- If every edge weight is nonnegative, the graph has no negative cycle. -/
theorem noNegCycle_of_nonneg (es : List (Edge F P))
    (h : ∀ e ∈ es, 0 ≤ e.w) : NoNegCycle es := by
  have hall : ∀ (s t : Token) (l : List (Edge F P)), Walk es s t l →
      0 ≤ weight l := by
    intro s t l hwk
    induction hwk with
    | nil => exact le_of_eq weight_nil.symm
    | cons e he hwk2 ih =>
      rename_i l2
      have hc : weight (e :: l2) = e.w + weight l2 := by simp [weight]
      rw [hc]
      exact add_nonneg (h e he) ih
  intro t l hwk
  exact hall t t l hwk

/-- On a graph without negative cycles, after `|nodes| - 1` relaxation passes
the verification scan finds no edge that still relaxes. -/
theorem findRelaxable_none (nodes : List Token) (edges : List (Edge F P))
    (hw : Wellformed nodes edges) (hnc : NoNegCycle edges) :
    findRelaxable (fun t => nodes.indexOf t) edges
      (passIter (fun t => nodes.indexOf t) edges (nodes.length - 1)
        (init F P nodes.length)) = none := by
  rw [findRelaxable, List.find?_eq_none]
  intro e he
  simp only [decide_eq_true_eq]
  rw [not_lt]
  have hg : GoodState nodes edges
      (passIter (fun t => nodes.indexOf t) edges (nodes.length - 1)
        (init F P nodes.length)) :=
    passIter_good nodes edges hw _ _ (goodState_init nodes edges)
  obtain ⟨hd, hp, h3, h4⟩ := hg
  obtain ⟨s, l, hs, hwalk, hwt⟩ := h3 e.u (hw e he).1
  have hsnoc : Walk edges s e.v (l ++ [e]) := hwalk.snoc he
  obtain ⟨l2, hw2, hwt2, hl2⟩ :=
    walk_short nodes edges hw hnc (l ++ [e]).length (l ++ [e]) s e.v
      le_rfl hs hsnoc
  have hlb := passIter_le_walk nodes edges hw (nodes.length - 1) s e.v l2
    hw2 hl2
  have hse : weight (F := F) (P := P) [e] = e.w := by simp [weight]
  calc (passIter (fun t => nodes.indexOf t) edges (nodes.length - 1)
        (init F P nodes.length)).dist.getD (nodes.indexOf e.v) 0
      ≤ weight l2 := hlb
    _ ≤ weight (l ++ [e]) := hwt2
    _ = (passIter (fun t => nodes.indexOf t) edges (nodes.length - 1)
          (init F P nodes.length)).dist.getD (nodes.indexOf e.u) 0 + e.w := by
        rw [weight_append, hwt, hse]

end BF

/-- C4 (amended): on every wellformed graph without a negative cycle, both
detectors return the empty cycle — the discovery variant after its fixed
`|nodes| - 1` passes, the arbitrage_bot variant after at most `|nodes| - 1`
passes (its early exit can stop sooner) — and the verification scan finds no
edge that still relaxes. -/
theorem C4_no_negative_cycle_empty_result {F P : Type}
    [LinearOrderedAddCommGroup F] (nodes : List Token)
    (edges : List (Edge F P)) (hwf : BF.Wellformed nodes edges)
    (hnc : BF.NoNegCycle edges) :
    DiscBot.find_negative_cycle nodes edges = some ([], []) ∧
    ArbBot.find_negative_cycle nodes edges = some ([], []) ∧
    ArbBot.find_negative_cycle_passes nodes edges ≤ nodes.length - 1 := by
  refine ⟨?_, ?_, ?_⟩
  · simp only [DiscBot.find_negative_cycle]
    rw [BF.relaxLoop_eq_passIter, BF.findRelaxable_none nodes edges hwf hnc]
  · simp only [ArbBot.find_negative_cycle]
    obtain ⟨m, hm, hst, hcnt, hlast⟩ :=
      BF.relaxLoopEarly_spec (fun t => nodes.indexOf t) edges
        (nodes.length - 1) (BF.init F P nodes.length)
    rcases hlast with heq | hfl
    · rw [heq] at hst
      rw [hst, BF.findRelaxable_none nodes edges hwf hnc]
    · unfold BF.pass at hfl
      have hnone : BF.findRelaxable (fun t => nodes.indexOf t) edges
          ((BF.relaxLoopEarly (fun t => nodes.indexOf t) edges
            (nodes.length - 1) (BF.init F P nodes.length)).1) = none := by
        rw [BF.findRelaxable, List.find?_eq_none]
        intro e he
        simp only [decide_eq_true_eq]
        exact (BF.pass_false_spec (fun t => nodes.indexOf t) edges _ hfl).1 e he
      rw [hnone]
  · simp only [ArbBot.find_negative_cycle_passes]
    obtain ⟨m, hm, hst, hcnt, hlast⟩ :=
      BF.relaxLoopEarly_spec (fun t => nodes.indexOf t) edges
        (nodes.length - 1) (BF.init F P nodes.length)
    exact hcnt

/-- C4 counterexample: the empty graph on three nodes has no negative cycle,
yet arbitrage_bot's loop executes a single pass (the first pass relaxes
nothing and the early exit fires), not `|nodes| - 1 = 2` — the claimed
"exactly `|nodes| - 1` relaxation passes" fails for that variant. -/
theorem C4_counterexample_pass_count :
    BF.NoNegCycle (F := Int) (P := Unit) [] ∧
    ArbBot.find_negative_cycle_passes (F := Int) (P := Unit)
      ["A", "B", "C"] [] = 1 ∧
    (["A", "B", "C"] : List Token).length - 1 = 2 := by
  refine ⟨?_, by decide, by decide⟩
  intro t l hwk
  cases hwk with
  | nil => exact le_of_eq BF.weight_nil.symm
  | cons e he hwk2 => cases he

/-- C4 witness: the one-edge positive-weight graph satisfies the amended
theorem's hypotheses, and both detectors return the empty cycle on it with
at most one pass. -/
theorem C4_no_negative_cycle_empty_result_witness :
    BF.Wellformed ["A", "B"] wPos ∧ BF.NoNegCycle wPos ∧
    (DiscBot.find_negative_cycle ["A", "B"] wPos = some ([], []) ∧
     ArbBot.find_negative_cycle ["A", "B"] wPos = some ([], []) ∧
     ArbBot.find_negative_cycle_passes ["A", "B"] wPos ≤
       (["A", "B"] : List Token).length - 1) := by
  have hwf : BF.Wellformed ["A", "B"] wPos := by
    intro e he
    simp only [wPos, List.mem_singleton] at he
    subst he
    exact ⟨by decide, by decide⟩
  have hnc : BF.NoNegCycle wPos := by
    refine BF.noNegCycle_of_nonneg wPos ?_
    intro e he
    simp only [wPos, List.mem_singleton] at he
    subst he
    decide
  exact ⟨hwf, hnc, C4_no_negative_cycle_empty_result ["A", "B"] wPos hwf hnc⟩

namespace BF

variable {F P : Type} [LinearOrderedAddCommGroup F]

/-- Reversing a one-element extension. -/
theorem reverse_snoc {α : Type} (l : List α) (a : α) :
    (l ++ [a]).reverse = a :: l.reverse := by
  simp

/-- The strict backward walk splits over addition of step counts. -/
theorem backWalkStrict_add {Q : Type} (parent : List (Option (Nat × Q))) :
    ∀ (a b s : Nat), backWalkStrict parent (a + b) s =
      (backWalkStrict parent a s).bind
        (fun m => backWalkStrict parent b m) := by
  intro a
  induction a with
  | zero =>
    intro b s
    rw [Nat.zero_add]
    rfl
  | succ a ih =>
    intro b s
    have hh : a + 1 + b = (a + b) + 1 := by omega
    rw [hh]
    simp only [backWalkStrict]
    cases hpar : parent.getD s none with
    | none => rfl
    | some pr => exact ih b pr.1

/-- If every predecessor entry's index is below `N`, the strict backward walk
stays below `N`. -/
theorem backWalkStrict_lt {Q : Type} (parent : List (Option (Nat × Q)))
    (N : Nat)
    (hui : ∀ vi ui pl, parent.getD vi none = some (ui, pl) → ui < N) :
    ∀ (k v0 m : Nat), v0 < N → backWalkStrict parent k v0 = some m →
    m < N := by
  intro k
  induction k with
  | zero =>
    intro v0 m h0 hh
    simp only [backWalkStrict, Option.some.injEq] at hh
    subst hh
    exact h0
  | succ k ih =>
    intro v0 m h0 hh
    simp only [backWalkStrict] at hh
    cases hpar : parent.getD v0 none with
    | none => rw [hpar] at hh; cases hh
    | some pr =>
      rw [hpar] at hh
      exact ih pr.1 m (hui v0 pr.1 pr.2 (by rw [hpar])) hh

/-- After `N` well-defined strict backward steps the walk has landed on a
cycle of the predecessor graph (pigeonhole: the `N + 1` visited indices live
among `N` values). -/
theorem backWalkStrict_cycle {Q : Type} (parent : List (Option (Nat × Q)))
    (N : Nat)
    (hui : ∀ vi ui pl, parent.getD vi none = some (ui, pl) → ui < N)
    (v0 L : Nat) (h0 : v0 < N)
    (h : backWalkStrict parent N v0 = some L) :
    ∃ p, 1 ≤ p ∧ p ≤ N ∧ backWalkStrict parent p L = some L := by
  have hpre : ∀ k ≤ N, ∃ m, backWalkStrict parent k v0 = some m := by
    intro k hk
    have hsplit : backWalkStrict parent N v0 =
        (backWalkStrict parent k v0).bind
          (fun m => backWalkStrict parent (N - k) m) := by
      rw [← backWalkStrict_add]
      congr 1
      omega
    rw [hsplit] at h
    cases hm : backWalkStrict parent k v0 with
    | none => rw [hm] at h; cases h
    | some m => exact ⟨m, rfl⟩
  have key : ∀ a b : Nat, a < b → b ≤ N →
      (backWalkStrict parent a v0).getD 0 =
        (backWalkStrict parent b v0).getD 0 →
      ∃ p, 1 ≤ p ∧ p ≤ N ∧ backWalkStrict parent p L = some L := by
    intro a b hab hble hdeq
    obtain ⟨ma, hma⟩ := hpre a (by omega)
    obtain ⟨mb, hmb⟩ := hpre b hble
    rw [hma, hmb] at hdeq
    simp only [Option.getD_some] at hdeq
    subst hdeq
    have hper : backWalkStrict parent (b - a) ma = some ma := by
      have hsum : backWalkStrict parent b v0 =
          (backWalkStrict parent a v0).bind
            (fun m => backWalkStrict parent (b - a) m) := by
        rw [← backWalkStrict_add]
        congr 1
        omega
      rw [hmb, hma] at hsum
      exact hsum.symm
    have hland : backWalkStrict parent (N - a) ma = some L := by
      have hsum : backWalkStrict parent N v0 =
          (backWalkStrict parent a v0).bind
            (fun m => backWalkStrict parent (N - a) m) := by
        rw [← backWalkStrict_add]
        congr 1
        omega
      rw [h, hma] at hsum
      exact hsum.symm
    refine ⟨b - a, by omega, by omega, ?_⟩
    have h1 := backWalkStrict_add parent (N - a) (b - a) ma
    rw [hland] at h1
    have h1' : backWalkStrict parent ((N - a) + (b - a)) ma =
        backWalkStrict parent (b - a) L := h1
    have h2 := backWalkStrict_add parent (b - a) (N - a) ma
    rw [hper] at h2
    have h2' : backWalkStrict parent ((b - a) + (N - a)) ma =
        backWalkStrict parent (N - a) ma := h2
    rw [hland] at h2'
    rw [Nat.add_comm (N - a) (b - a)] at h1'
    rw [h2'] at h1'
    exact h1'.symm
  have hmaps : ∀ k : Fin (N + 1),
      (backWalkStrict parent k.1 v0).getD 0 ∈ Finset.range N := by
    intro k
    obtain ⟨m, hm⟩ := hpre k.1 (by have := k.isLt; omega)
    rw [hm]
    simp only [Option.getD_some]
    rw [Finset.mem_range]
    exact backWalkStrict_lt parent N hui k.1 v0 m h0 hm
  obtain ⟨i, -, j, -, hij, heq⟩ :=
    Finset.exists_ne_map_eq_of_card_lt_of_maps_to
      (show (Finset.range N).card <
          (Finset.univ : Finset (Fin (N + 1))).card from by
        rw [Finset.card_univ, Fintype.card_fin, Finset.card_range]
        omega)
      (fun k _ => hmaps k)
  have hij' : i.1 ≠ j.1 := fun hh => hij (Fin.ext hh)
  rcases Nat.lt_or_ge i.1 j.1 with hlt | hge
  · exact key i.1 j.1 hlt (by have := j.isLt; omega) heq
  · exact key j.1 i.1 (by omega) (by have := i.isLt; omega) heq.symm

/-- Each strict backward chain of a good state projects to a real walk of the
graph whose weight telescopes against the distances. -/
theorem backWalkStrict_walk (nodes : List Token) (edges : List (Edge F P))
    (hw : Wellformed nodes edges) (st : State F P)
    (hg : GoodState nodes edges st) :
    ∀ (d v v2 : Nat), backWalkStrict st.parent d v = some v2 →
    ∃ l, Walk edges (nodes.getD v2 "") (nodes.getD v "") l ∧
      l.length = d ∧
      weight l ≤ st.dist.getD v 0 - st.dist.getD v2 0 := by
  obtain ⟨hd, hp, h3, h4⟩ := hg
  intro d
  induction d with
  | zero =>
    intro v v2 hh
    simp only [backWalkStrict, Option.some.injEq] at hh
    subst hh
    exact ⟨[], Walk.nil _, rfl, by rw [sub_self]; exact le_of_eq weight_nil⟩
  | succ d ih =>
    intro v v2 hh
    simp only [backWalkStrict] at hh
    cases hpar : st.parent.getD v none with
    | none => rw [hpar] at hh; cases hh
    | some pr =>
      rw [hpar] at hh
      obtain ⟨hult, e, he, heu, hev, hepl, hineq⟩ :=
        h4 v pr.1 pr.2 (by rw [hpar])
      obtain ⟨l, hwk, hlen, hwt⟩ := ih pr.1 v2 hh
      have hu : nodes.getD pr.1 "" = e.u := by
        rw [← heu]
        exact getD_indexOf nodes e.u "" (hw e he).1
      have hv : nodes.getD v "" = e.v := by
        rw [← hev]
        exact getD_indexOf nodes e.v "" (hw e he).2
      refine ⟨l ++ [e], ?_, by simp [hlen], ?_⟩
      · rw [hv]
        refine Walk.snoc ?_ he
        rw [← hu]
        exact hwk
      · rw [weight_append]
        have hse : weight (F := F) (P := P) [e] = e.w := by simp [weight]
        rw [hse]
        have h5 : e.w ≤ st.dist.getD v 0 - st.dist.getD pr.1 0 := by
          have h6 := hineq
          rw [add_comm] at h6
          exact le_sub_iff_add_le.mpr h6
        calc weight l + e.w
            ≤ (st.dist.getD pr.1 0 - st.dist.getD v2 0) +
              (st.dist.getD v 0 - st.dist.getD pr.1 0) := add_le_add hwt h5
          _ = st.dist.getD v 0 - st.dist.getD v2 0 := by abel

/-- If the current node reaches `start` along defined predecessor links in
`d ≤ fuel` steps, the collection loop terminates with a closed walk through
`start`, returning its tokens (closed: `start` first and last) and its
backing pools. -/
theorem collect_walk (nodes : List Token) (edges : List (Edge F P))
    (parent : List (Option (Nat × P)))
    (hp : ∀ vi ui pl, parent.getD vi none = some (ui, pl) →
      ∃ e ∈ edges, e.u = nodes.getD ui "" ∧ e.v = nodes.getD vi "" ∧
        e.pool = pl)
    (start : Nat) :
    ∀ (d fuel cur : Nat) (ts : List Token) (ps : List P)
      (lacc : List (Edge F P)),
    1 ≤ d → d ≤ fuel →
    backWalkStrict parent d cur = some start →
    Walk edges (nodes.getD cur "") (nodes.getD start "") lacc →
    ts.reverse = lacc.map (fun e2 => e2.v) →
    ps.reverse = lacc.map (fun e2 => e2.pool) →
    ∃ l, collect parent (fun i => nodes.getD i "") start fuel cur ts ps =
        some (nodes.getD start "" :: l.map (fun e2 => e2.v),
          l.map (fun e2 => e2.pool)) ∧
      Walk edges (nodes.getD start "") (nodes.getD start "") l := by
  intro d
  induction d with
  | zero =>
    intro fuel cur ts ps lacc h1 _ _ _ _ _
    exact absurd h1 (by omega)
  | succ d ih =>
    intro fuel cur ts ps lacc h1 hflt hbw hwk hts hps
    cases fuel with
    | zero => omega
    | succ f =>
      simp only [backWalkStrict] at hbw
      cases hpar : parent.getD cur none with
      | none => rw [hpar] at hbw; cases hbw
      | some pr =>
        rw [hpar] at hbw
        obtain ⟨e, he, heu, hev, hepl⟩ := hp cur pr.1 pr.2 (by rw [hpar])
        simp only [collect, hpar]
        by_cases hstart : pr.1 = start
        · rw [if_pos hstart]
          refine ⟨e :: lacc, ?_, ?_⟩
          · rw [reverse_snoc, reverse_snoc, reverse_snoc, hts, hps, ← hev,
              ← hepl]
            rfl
          · have heustart : e.u = nodes.getD start "" := by
              rw [heu, hstart]
            have hwk2 : Walk edges e.v e.u lacc := by
              rw [hev, heustart]
              exact hwk
            rw [← heustart]
            exact Walk.cons e he hwk2
        · rw [if_neg hstart]
          have hd1 : 1 ≤ d := by
            rcases Nat.eq_zero_or_pos d with rfl | hpos
            · simp only [backWalkStrict, Option.some.injEq] at hbw
              exact absurd hbw hstart
            · exact hpos
          refine ih f pr.1 (ts ++ [nodes.getD cur ""]) (ps ++ [pr.2])
            (e :: lacc) hd1 (by omega) hbw ?_ ?_ ?_
          · rw [← heu]
            refine Walk.cons e he ?_
            rw [hev]
            exact hwk
          · rw [reverse_snoc, hts, ← hev]
            rfl
          · rw [reverse_snoc, hps, ← hepl]
            rfl

/-- arbitrage_bot's tolerant backward pre-walk either stops on a node with no
predecessor or agrees with the strict walk. -/
theorem backWalk_cases {Q : Type} (parent : List (Option (Nat × Q))) :
    ∀ (k s : Nat), parent.getD (backWalk parent k s) none = none ∨
      backWalkStrict parent k s = some (backWalk parent k s) := by
  intro k
  induction k with
  | zero => intro s; right; rfl
  | succ k ih =>
    intro s
    simp only [backWalk, backWalkStrict]
    cases hpar : parent.getD s none with
    | none => left; exact hpar
    | some pr => exact ih pr.1

end BF

namespace BF

variable {F P : Type} [LinearOrderedAddCommGroup F]

/-- Two predecessor arrays that agree outside `vi` run the strict backward
walk identically as long as the walk never reads an entry at `vi`. -/
theorem backWalkStrict_eq_of_avoid {Q : Type}
    (pa pb : List (Option (Nat × Q))) (vi : Nat)
    (hagree : ∀ s, s ≠ vi → pa.getD s none = pb.getD s none) :
    ∀ (k s : Nat),
    (∀ r m, r < k → backWalkStrict pa r s = some m → m ≠ vi) →
    backWalkStrict pa k s = backWalkStrict pb k s := by
  intro k
  induction k with
  | zero => intro s _; rfl
  | succ k ih =>
    intro s havoid
    have hs : s ≠ vi := havoid 0 s (by omega) rfl
    simp only [backWalkStrict]
    rw [hagree s hs]
    cases hpar : pb.getD s none with
    | none => rfl
    | some pr =>
      refine ih pr.1 ?_
      intro r m hr hm
      refine havoid (r + 1) m (by omega) ?_
      simp only [backWalkStrict]
      rw [hagree s hs, hpar]
      exact hm

/-- On a periodic point the strict backward walk only depends on the step
count modulo the period. -/
theorem backWalkStrict_period_mod {Q : Type}
    (parent : List (Option (Nat × Q))) (q s : Nat)
    (hq : backWalkStrict parent q s = some s) (hq1 : 1 ≤ q) :
    ∀ b, backWalkStrict parent b s = backWalkStrict parent (b % q) s := by
  intro b
  induction b using Nat.strong_induction_on with
  | _ b ih =>
    by_cases hb : b < q
    · rw [Nat.mod_eq_of_lt hb]
    · push_neg at hb
      have hsplit : backWalkStrict parent b s =
          (backWalkStrict parent q s).bind
            (fun m => backWalkStrict parent (b - q) m) := by
        rw [← backWalkStrict_add]
        congr 1
        omega
      rw [hsplit, hq]
      have hred : (some s).bind
          (fun m => backWalkStrict parent (b - q) m) =
          backWalkStrict parent (b - q) s := rfl
      rw [hred, ih (b - q) (by omega)]
      congr 1
      exact (Nat.mod_eq_sub_mod hb).symm

/-- One relaxation preserves strict negativity of the predecessor graph's
cycles: a cycle of the new predecessor array projects to a strictly negative
closed walk of the rate graph through any of its nodes.  The new cycle, if it
passes through the overwritten entry, telescopes the old distance
inequalities along its old entries against the strict inequality of the
relaxation that fired. -/
theorem relaxEdge_negCycles (nodes : List Token) (edges : List (Edge F P))
    (hw : Wellformed nodes edges) (e : Edge F P) (he : e ∈ edges)
    (st : State F P) (hg : GoodState nodes edges st)
    (hneg : ∀ L p, 1 ≤ p → backWalkStrict st.parent p L = some L →
      ∃ l, l ≠ [] ∧ Walk edges (nodes.getD L "") (nodes.getD L "") l ∧
        weight l < 0) :
    ∀ L p, 1 ≤ p →
    backWalkStrict ((relaxEdge (fun t => nodes.indexOf t) st e).1).parent
      p L = some L →
    ∃ l, l ≠ [] ∧ Walk edges (nodes.getD L "") (nodes.getD L "") l ∧
      weight l < 0 := by
  intro L p hp1 hcyc
  simp only [relaxEdge] at hcyc
  by_cases hfire : st.dist.getD (nodes.indexOf e.u) 0 + e.w <
      st.dist.getD (nodes.indexOf e.v) 0
  · rw [if_pos hfire] at hcyc
    have hgc := hg
    obtain ⟨hd, hpl, h3, h4⟩ := hg
    obtain ⟨hu, hv⟩ := hw e he
    have hcyc2 : backWalkStrict
        (st.parent.set (nodes.indexOf e.v)
          (some (nodes.indexOf e.u, e.pool))) p L = some L := hcyc
    set vi := nodes.indexOf e.v with hvidef
    set ui := nodes.indexOf e.u with huidef
    set pa2 := st.parent.set vi (some (ui, e.pool)) with hpa2def
    have hvilen : vi < st.parent.length := by
      rw [hpl]
      exact List.indexOf_lt_length.mpr hv
    have hagree : ∀ s2, s2 ≠ vi →
        pa2.getD s2 none = st.parent.getD s2 none := by
      intro s2 hs2
      rw [hpa2def, getD_set, if_neg (fun hc => hs2 hc.1.symm)]
    have hpar_vi : pa2.getD vi none = some (ui, e.pool) := by
      rw [hpa2def, getD_set, if_pos ⟨rfl, hvilen⟩]
    have hstep1 : backWalkStrict pa2 1 vi = some ui := by
      simp only [backWalkStrict, hpar_vi]
    have hpeel : ∀ j, backWalkStrict pa2 (1 + j) vi =
        backWalkStrict pa2 j ui := by
      intro j
      rw [backWalkStrict_add pa2 1 j vi, hstep1]
      rfl
    have htokv : nodes.getD vi "" = e.v := getD_indexOf nodes e.v "" hv
    have htoku : nodes.getD ui "" = e.u := getD_indexOf nodes e.u "" hu
    have hse : weight (F := F) (P := P) [e] = e.w := by simp [weight]
    have harith : (st.dist.getD ui 0 - st.dist.getD vi 0) + e.w < 0 := by
      have h10 : (st.dist.getD ui 0 - st.dist.getD vi 0) + e.w =
          (st.dist.getD ui 0 + e.w) - st.dist.getD vi 0 := by abel
      rw [h10]
      exact sub_neg.mpr hfire
    by_cases hvis : ∃ r, r < p ∧ backWalkStrict pa2 r L = some vi
    · obtain ⟨r, hrp, hrL⟩ := hvis
      have hviL : backWalkStrict pa2 (p - r) vi = some L := by
        have hsplit := backWalkStrict_add pa2 r (p - r) L
        rw [show r + (p - r) = p from by omega, hcyc2, hrL] at hsplit
        exact hsplit.symm
      have hvicyc : backWalkStrict pa2 p vi = some vi := by
        have hsplit := backWalkStrict_add pa2 (p - r) r vi
        rw [show (p - r) + r = p from by omega, hviL] at hsplit
        rw [hsplit]
        exact hrL
      have hqex : ∃ q, 1 ≤ q ∧ backWalkStrict pa2 q vi = some vi :=
        ⟨p, hp1, hvicyc⟩
      obtain ⟨hq1, hqcyc⟩ := Nat.find_spec hqex
      have hqmin : ∀ j, 1 ≤ j → j < Nat.find hqex →
          backWalkStrict pa2 j vi ≠ some vi := by
        intro j hj1 hjq hc
        exact Nat.find_min hqex hjq ⟨hj1, hc⟩
      have hr2lt : (p - r) % Nat.find hqex < Nat.find hqex :=
        Nat.mod_lt _ hq1
      have hLr2 : backWalkStrict pa2 ((p - r) % Nat.find hqex) vi =
          some L := by
        rw [← backWalkStrict_period_mod pa2 (Nat.find hqex) vi hqcyc hq1
          (p - r)]
        exact hviL
      have havoid_base : ∀ j m, 1 ≤ j → j < Nat.find hqex →
          backWalkStrict pa2 j vi = some m → m ≠ vi := by
        intro j m hj1 hjq hjm hmvi
        rw [hmvi] at hjm
        exact hqmin j hj1 hjq hjm
      rcases Nat.eq_zero_or_pos ((p - r) % Nat.find hqex) with hr20 | hr21
      · have hLvi : L = vi := by
          rw [hr20] at hLr2
          simp only [backWalkStrict, Option.some.injEq] at hLr2
          exact hLr2.symm
        have htail : backWalkStrict pa2 (Nat.find hqex - 1) ui =
            some vi := by
          have h7 := hpeel (Nat.find hqex - 1)
          rw [show 1 + (Nat.find hqex - 1) = Nat.find hqex from
            by omega] at h7
          rw [← h7]
          exact hqcyc
        have havoid_tail : ∀ j m, j < Nat.find hqex - 1 →
            backWalkStrict pa2 j ui = some m → m ≠ vi := by
          intro j m hj hjm
          refine havoid_base (1 + j) m (by omega) (by omega) ?_
          rw [hpeel j]
          exact hjm
        rw [backWalkStrict_eq_of_avoid pa2 st.parent vi hagree
          (Nat.find hqex - 1) ui havoid_tail] at htail
        obtain ⟨l1, hwk1, -, hwt1⟩ := backWalkStrict_walk nodes edges hw st
          hgc (Nat.find hqex - 1) ui vi htail
        refine ⟨l1 ++ [e], by simp, ?_, ?_⟩
        · rw [hLvi, htokv]
          have hwk1e : Walk edges e.v e.u l1 := by
            rw [← htokv, ← htoku]
            exact hwk1
          exact hwk1e.snoc he
        · rw [weight_append, hse]
          exact lt_of_le_of_lt (add_le_add_right hwt1 e.w) harith
      · have hchain1 : backWalkStrict pa2
            ((p - r) % Nat.find hqex - 1) ui = some L := by
          have h7 := hpeel ((p - r) % Nat.find hqex - 1)
          rw [show 1 + ((p - r) % Nat.find hqex - 1) =
            (p - r) % Nat.find hqex from by omega] at h7
          rw [← h7]
          exact hLr2
        have havoid1 : ∀ j m, j < (p - r) % Nat.find hqex - 1 →
            backWalkStrict pa2 j ui = some m → m ≠ vi := by
          intro j m hj hjm
          refine havoid_base (1 + j) m (by omega) (by omega) ?_
          rw [hpeel j]
          exact hjm
        rw [backWalkStrict_eq_of_avoid pa2 st.parent vi hagree
          ((p - r) % Nat.find hqex - 1) ui havoid1] at hchain1
        have hchain2 : backWalkStrict pa2
            (Nat.find hqex - (p - r) % Nat.find hqex) L = some vi := by
          have h7 := backWalkStrict_add pa2 ((p - r) % Nat.find hqex)
            (Nat.find hqex - (p - r) % Nat.find hqex) vi
          rw [show (p - r) % Nat.find hqex +
            (Nat.find hqex - (p - r) % Nat.find hqex) = Nat.find hqex from
            by omega, hqcyc, hLr2] at h7
          exact h7.symm
        have havoid2 : ∀ j m,
            j < Nat.find hqex - (p - r) % Nat.find hqex →
            backWalkStrict pa2 j L = some m → m ≠ vi := by
          intro j m hj hjm
          refine havoid_base ((p - r) % Nat.find hqex + j) m (by omega)
            (by omega) ?_
          have h7 := backWalkStrict_add pa2 ((p - r) % Nat.find hqex) j vi
          rw [hLr2] at h7
          rw [h7]
          exact hjm
        rw [backWalkStrict_eq_of_avoid pa2 st.parent vi hagree
          (Nat.find hqex - (p - r) % Nat.find hqex) L havoid2] at hchain2
        obtain ⟨l1, hwk1, -, hwt1⟩ := backWalkStrict_walk nodes edges hw st
          hgc ((p - r) % Nat.find hqex - 1) ui L hchain1
        obtain ⟨l2, hwk2, -, hwt2⟩ := backWalkStrict_walk nodes edges hw st
          hgc (Nat.find hqex - (p - r) % Nat.find hqex) L vi hchain2
        refine ⟨(l1 ++ [e]) ++ l2, by simp, ?_, ?_⟩
        · have hwk1e : Walk edges (nodes.getD L "") e.u l1 := by
            rw [← htoku]
            exact hwk1
          have hwk2e : Walk edges e.v (nodes.getD L "") l2 := by
            rw [← htokv]
            exact hwk2
          exact (hwk1e.snoc he).append hwk2e
        · rw [weight_append, weight_append, hse]
          have hsum : (st.dist.getD ui 0 - st.dist.getD L 0) + e.w +
              (st.dist.getD L 0 - st.dist.getD vi 0) < 0 := by
            have h10 : (st.dist.getD ui 0 - st.dist.getD L 0) + e.w +
                (st.dist.getD L 0 - st.dist.getD vi 0) =
                (st.dist.getD ui 0 - st.dist.getD vi 0) + e.w := by abel
            rw [h10]
            exact harith
          exact lt_of_le_of_lt
            (add_le_add (add_le_add_right hwt1 e.w) hwt2) hsum
    · have havoid : ∀ r m, r < p → backWalkStrict pa2 r L = some m →
          m ≠ vi := by
        intro r m hr hm hmvi
        exact hvis ⟨r, hr, hmvi ▸ hm⟩
      rw [backWalkStrict_eq_of_avoid pa2 st.parent vi hagree p L havoid]
        at hcyc2
      exact hneg L p hp1 hcyc2
  · rw [if_neg hfire] at hcyc
    exact hneg L p hp1 hcyc

/-- A fold of relaxations of graph edges preserves strict negativity of the
predecessor graph's cycles. -/
theorem foldlS_negCycles (nodes : List Token) (edges : List (Edge F P))
    (hw : Wellformed nodes edges) :
    ∀ (l : List (Edge F P)), (∀ e ∈ l, e ∈ edges) → ∀ st : State F P,
    GoodState nodes edges st →
    (∀ L p, 1 ≤ p → backWalkStrict st.parent p L = some L →
      ∃ l2, l2 ≠ [] ∧ Walk edges (nodes.getD L "") (nodes.getD L "") l2 ∧
        weight l2 < 0) →
    ∀ L p, 1 ≤ p →
    backWalkStrict (List.foldl
      (fun s e => (relaxEdge (fun t => nodes.indexOf t) s e).1)
      st l).parent p L = some L →
    ∃ l2, l2 ≠ [] ∧ Walk edges (nodes.getD L "") (nodes.getD L "") l2 ∧
      weight l2 < 0 := by
  intro l
  induction l with
  | nil => intro _ st _ hneg; exact hneg
  | cons e l ih =>
    intro hsub st hg hneg L p hp1 hcyc
    rw [List.foldl_cons] at hcyc
    exact ih (fun e2 he2 => hsub e2 (by simp [he2])) _
      (relaxEdge_good nodes edges hw e (hsub e (by simp)) st hg)
      (relaxEdge_negCycles nodes edges hw e (hsub e (by simp)) st hg hneg)
      L p hp1 hcyc

/-- After any number of relaxation passes from the initial state, every cycle
of the predecessor graph projects to a strictly negative closed walk of the
rate graph through any of its nodes. -/
theorem passIter_negCycles (nodes : List Token) (edges : List (Edge F P))
    (hw : Wellformed nodes edges) :
    ∀ (k L p : Nat), 1 ≤ p →
    backWalkStrict (passIter (fun t => nodes.indexOf t) edges k
      (init F P nodes.length)).parent p L = some L →
    ∃ l, l ≠ [] ∧ Walk edges (nodes.getD L "") (nodes.getD L "") l ∧
      weight l < 0 := by
  intro k
  induction k with
  | zero =>
    intro L p hp1 hcyc
    exfalso
    cases p with
    | zero => omega
    | succ p2 =>
      simp only [passIter, init] at hcyc
      have hpar : (List.replicate nodes.length
          (none : Option (Nat × P))).getD L none = none := by
        rw [getD_replicate]
        split <;> rfl
      simp only [backWalkStrict, hpar] at hcyc
      cases hcyc
  | succ k ih =>
    intro L p hp1 hcyc
    simp only [passIter, passS] at hcyc
    exact foldlS_negCycles nodes edges hw edges (fun _ h => h) _
      (passIter_good nodes edges hw k _ (goodState_init nodes edges)) ih
      L p hp1 hcyc

end BF

/-- C7 (amended): whenever the verification pass finds a relaxable edge and
the strict backward pre-walk of `|nodes|` steps from its head is well-defined,
the walk lands strictly inside a cycle of the predecessor graph (period at
most `|nodes|`), the landing node lies on a strictly negative closed walk of
the rate graph — a negative cycle — and the collection loop terminates by
revisiting the landing node, so the detector returns a result.  The claim's
well-definedness premise itself is refuted separately: the head of the
flagged edge can carry no predecessor at all. -/
theorem C7_backwalk_lands_on_predecessor_cycle {F P : Type}
    [LinearOrderedAddCommGroup F] (nodes : List Token)
    (edges : List (Edge F P)) (hwf : BF.Wellformed nodes edges)
    (e : Edge F P) (L : Nat)
    (he : BF.findRelaxable (fun t => nodes.indexOf t) edges
      (BF.relaxLoop (fun t => nodes.indexOf t) edges (nodes.length - 1)
        (BF.init F P nodes.length)) = some e)
    (hbw : BF.backWalkStrict
      (BF.relaxLoop (fun t => nodes.indexOf t) edges (nodes.length - 1)
        (BF.init F P nodes.length)).parent nodes.length
      (nodes.indexOf e.v) = some L) :
    (∃ p, 1 ≤ p ∧ p ≤ nodes.length ∧
      BF.backWalkStrict
        (BF.relaxLoop (fun t => nodes.indexOf t) edges (nodes.length - 1)
          (BF.init F P nodes.length)).parent p L = some L) ∧
    (∃ l, l ≠ [] ∧ BF.Walk edges (nodes.getD L "") (nodes.getD L "") l ∧
      BF.weight l < 0) ∧
    DiscBot.find_negative_cycle nodes edges ≠ none := by
  have hg : BF.GoodState nodes edges
      (BF.relaxLoop (fun t => nodes.indexOf t) edges (nodes.length - 1)
        (BF.init F P nodes.length)) := by
    rw [BF.relaxLoop_eq_passIter]
    exact BF.passIter_good nodes edges hwf _ _ (BF.goodState_init nodes edges)
  have hg2 := hg
  obtain ⟨hdl, hpl, h3, h4⟩ := hg2
  have hui : ∀ vi ui pl,
      (BF.relaxLoop (fun t => nodes.indexOf t) edges (nodes.length - 1)
        (BF.init F P nodes.length)).parent.getD vi none = some (ui, pl) →
      ui < nodes.length := fun vi ui pl hh => (h4 vi ui pl hh).1
  have hemem : e ∈ edges := List.mem_of_find?_eq_some he
  have hv0 : nodes.indexOf e.v < nodes.length :=
    List.indexOf_lt_length.mpr (hwf e hemem).2
  obtain ⟨p, hp1, hpN, hcyc⟩ :=
    BF.backWalkStrict_cycle _ nodes.length hui _ L hv0 hbw
  have hcyc2 : BF.backWalkStrict
      (BF.passIter (fun t => nodes.indexOf t) edges (nodes.length - 1)
        (BF.init F P nodes.length)).parent p L = some L := by
    rw [← BF.relaxLoop_eq_passIter]
    exact hcyc
  have hnegL := BF.passIter_negCycles nodes edges hwf (nodes.length - 1)
    L p hp1 hcyc2
  refine ⟨⟨p, hp1, hpN, hcyc⟩, hnegL, ?_⟩
  have hpmem : ∀ vi ui pl,
      (BF.relaxLoop (fun t => nodes.indexOf t) edges (nodes.length - 1)
        (BF.init F P nodes.length)).parent.getD vi none = some (ui, pl) →
      ∃ e2 ∈ edges, e2.u = nodes.getD ui "" ∧ e2.v = nodes.getD vi "" ∧
        e2.pool = pl := by
    intro vi ui pl hh
    obtain ⟨-, e2, he2, h2u, h2v, h2p, -⟩ := h4 vi ui pl hh
    refine ⟨e2, he2, ?_, ?_, h2p⟩
    · rw [← h2u, BF.getD_indexOf nodes e2.u "" (hwf e2 he2).1]
    · rw [← h2v, BF.getD_indexOf nodes e2.v "" (hwf e2 he2).2]
  obtain ⟨lc, hcol, -⟩ :=
    BF.collect_walk nodes edges _ hpmem L p (nodes.length + 1) L [] [] []
      hp1 (by omega) hcyc (BF.Walk.nil _) (by simp) (by simp)
  simp only [DiscBot.find_negative_cycle, he, hbw, hcol]
  simp

/-- C7 counterexample: on `cexC7` the verification pass flags the edge
`B -> C`, yet `C` has no predecessor entry, so walking predecessor links
backward from the flagged head is not well-defined even for one step — the
discovery variant's extraction dereferences `None` (modelled as the detector
returning `none`). -/
theorem C7_counterexample_null_predecessor :
    BF.findRelaxable (fun t => List.indexOf t ["A", "B", "C"]) cexC7
      (BF.relaxLoop (fun t => List.indexOf t ["A", "B", "C"]) cexC7 2
        (BF.init Int Unit 3)) =
      some { u := "B", v := "C", w := 1, pool := () } ∧
    BF.backWalkStrict
      (BF.relaxLoop (fun t => List.indexOf t ["A", "B", "C"]) cexC7 2
        (BF.init Int Unit 3)).parent 3
      (List.indexOf "C" ["A", "B", "C"]) = none ∧
    DiscBot.find_negative_cycle ["A", "B", "C"] cexC7 = none := by
  refine ⟨by decide, by decide, by decide⟩

/-- C7 witness: on the two-node negative cycle the hypotheses of the amended
theorem hold concretely and the detector consequently returns a result. -/
theorem C7_backwalk_lands_on_predecessor_cycle_witness :
    BF.Wellformed ["A", "B"] wNeg ∧
    BF.findRelaxable (fun t => List.indexOf t ["A", "B"]) wNeg
      (BF.relaxLoop (fun t => List.indexOf t ["A", "B"]) wNeg 1
        (BF.init Int Unit 2)) =
      some { u := "A", v := "B", w := -1, pool := () } ∧
    BF.backWalkStrict
      (BF.relaxLoop (fun t => List.indexOf t ["A", "B"]) wNeg 1
        (BF.init Int Unit 2)).parent 2 1 = some 1 ∧
    DiscBot.find_negative_cycle ["A", "B"] wNeg ≠ none := by
  have hwf : BF.Wellformed ["A", "B"] wNeg := by
    intro e2 he2
    simp only [wNeg, List.mem_cons, List.not_mem_nil, or_false] at he2
    rcases he2 with rfl | rfl
    · exact ⟨by decide, by decide⟩
    · exact ⟨by decide, by decide⟩
  have he : BF.findRelaxable (fun t => List.indexOf t ["A", "B"]) wNeg
      (BF.relaxLoop (fun t => List.indexOf t ["A", "B"]) wNeg 1
        (BF.init Int Unit 2)) =
      some { u := "A", v := "B", w := -1, pool := () } := by decide
  have hbw : BF.backWalkStrict
      (BF.relaxLoop (fun t => List.indexOf t ["A", "B"]) wNeg 1
        (BF.init Int Unit 2)).parent 2 1 = some 1 := by decide
  refine ⟨hwf, he, hbw, ?_⟩
  exact (C7_backwalk_lands_on_predecessor_cycle ["A", "B"] wNeg hwf
    { u := "A", v := "B", w := -1, pool := () } 1 he hbw).2.2

namespace BF

variable {F P : Type} [LinearOrderedAddCommGroup F]

/-- The token sequence of a walk ends at the walk's target. -/
theorem walk_tokens_getLast {es : List (Edge F P)} {a b : Token}
    {l : List (Edge F P)} (h : Walk es a b l) :
    (a :: l.map (fun e2 => e2.v)).getLast? = some b := by
  induction h with
  | nil t0 => rfl
  | cons e he h ih =>
    simp only [List.map_cons]
    rw [List.getLast?_cons_cons]
    simpa using ih

/-- When the verification pass flags an edge of a good state and the strict
backward pre-walk from its head is defined, the collection loop returns the
token/pool projections of a closed walk through the landing node. -/
theorem detector_extract_spec (nodes : List Token) (edges : List (Edge F P))
    (hwf : Wellformed nodes edges) (st : State F P)
    (hg : GoodState nodes edges st) (e : Edge F P) (hemem : e ∈ edges)
    (L : Nat)
    (hstrict : backWalkStrict st.parent nodes.length (nodes.indexOf e.v) =
      some L) :
    ∃ lc, collect st.parent (fun i => nodes.getD i "") L
        (nodes.length + 1) L [] [] =
      some (nodes.getD L "" :: lc.map (fun e2 => e2.v),
        lc.map (fun e2 => e2.pool)) ∧
      Walk edges (nodes.getD L "") (nodes.getD L "") lc := by
  have hg2 := hg
  obtain ⟨-, -, -, h4⟩ := hg2
  have hui : ∀ vi ui pl, st.parent.getD vi none = some (ui, pl) →
      ui < nodes.length := fun vi ui pl hh => (h4 vi ui pl hh).1
  have hv0 : nodes.indexOf e.v < nodes.length :=
    List.indexOf_lt_length.mpr (hwf e hemem).2
  obtain ⟨p, hp1, hpN, hcyc⟩ :=
    backWalkStrict_cycle st.parent nodes.length hui _ L hv0 hstrict
  have hpmem : ∀ vi ui pl, st.parent.getD vi none = some (ui, pl) →
      ∃ e2 ∈ edges, e2.u = nodes.getD ui "" ∧ e2.v = nodes.getD vi "" ∧
        e2.pool = pl := by
    intro vi ui pl hh
    obtain ⟨-, e2, he2, h2u, h2v, h2p, -⟩ := h4 vi ui pl hh
    refine ⟨e2, he2, ?_, ?_, h2p⟩
    · rw [← h2u, getD_indexOf nodes e2.u "" (hwf e2 he2).1]
    · rw [← h2v, getD_indexOf nodes e2.v "" (hwf e2 he2).2]
  exact collect_walk nodes edges st.parent hpmem L p (nodes.length + 1) L
    [] [] [] hp1 (by omega) hcyc (Walk.nil _) (by simp) (by simp)

end BF

/-- C10: every non-empty detector result (either variant) is the projection
of a closed walk of the graph: the token list is that walk's node sequence
(so it begins and ends with the same token), the pool list is the walk's
backing pools, and the token list is exactly one longer than the pool list,
pool `i` backing the edge from token `i` to token `i + 1`. -/
theorem C10_result_is_closed_backed_walk {F P : Type}
    [LinearOrderedAddCommGroup F] (nodes : List Token)
    (edges : List (Edge F P)) (hwf : BF.Wellformed nodes edges)
    (T : List Token) (Pl : List P)
    (hres : ArbBot.find_negative_cycle nodes edges = some (T, Pl) ∨
      DiscBot.find_negative_cycle nodes edges = some (T, Pl))
    (hne : T ≠ []) :
    ∃ t0 l, BF.Walk edges t0 t0 l ∧
      T = t0 :: l.map (fun e2 => e2.v) ∧
      Pl = l.map (fun e2 => e2.pool) ∧
      T.head? = some t0 ∧ T.getLast? = some t0 ∧
      T.length = Pl.length + 1 := by
  rcases hres with hres | hres
  · simp only [ArbBot.find_negative_cycle] at hres
    obtain ⟨m, -, hst, -, -⟩ :=
      BF.relaxLoopEarly_spec (fun t => nodes.indexOf t) edges
        (nodes.length - 1) (BF.init F P nodes.length)
    have hg : BF.GoodState nodes edges
        ((BF.relaxLoopEarly (fun t => nodes.indexOf t) edges
          (nodes.length - 1) (BF.init F P nodes.length)).1) := by
      rw [hst]
      exact BF.passIter_good nodes edges hwf _ _
        (BF.goodState_init nodes edges)
    cases hfind : BF.findRelaxable (fun t => nodes.indexOf t) edges
        ((BF.relaxLoopEarly (fun t => nodes.indexOf t) edges
          (nodes.length - 1) (BF.init F P nodes.length)).1) with
    | none =>
      simp only [hfind, Option.some.injEq, Prod.mk.injEq] at hres
      exact absurd hres.1.symm hne
    | some e =>
      simp only [hfind] at hres
      have hemem : e ∈ edges := List.mem_of_find?_eq_some hfind
      rcases BF.backWalk_cases
          ((BF.relaxLoopEarly (fun t => nodes.indexOf t) edges
            (nodes.length - 1) (BF.init F P nodes.length)).1).parent
          nodes.length (nodes.indexOf e.v) with hnone | hstrict
      · simp only [BF.collect, hnone, List.nil_append, List.reverse_cons,
          List.reverse_nil, Option.some.injEq, Prod.mk.injEq] at hres
        obtain ⟨hT, hP⟩ := hres
        refine ⟨nodes.getD
          (BF.backWalk ((BF.relaxLoopEarly (fun t => nodes.indexOf t) edges
            (nodes.length - 1) (BF.init F P nodes.length)).1).parent
            nodes.length (nodes.indexOf e.v)) "", [], BF.Walk.nil _,
          hT.symm, hP.symm, ?_, ?_, ?_⟩
        · rw [← hT]; rfl
        · rw [← hT]; rfl
        · rw [← hT, ← hP]; rfl
      · obtain ⟨lc, hcol, hcwk⟩ :=
          BF.detector_extract_spec nodes edges hwf _ hg e hemem _ hstrict
        rw [hcol] at hres
        simp only [Option.some.injEq, Prod.mk.injEq] at hres
        obtain ⟨hT, hP⟩ := hres
        refine ⟨nodes.getD
          (BF.backWalk ((BF.relaxLoopEarly (fun t => nodes.indexOf t) edges
            (nodes.length - 1) (BF.init F P nodes.length)).1).parent
            nodes.length (nodes.indexOf e.v)) "", lc, hcwk,
          hT.symm, hP.symm, ?_, ?_, ?_⟩
        · rw [← hT]; rfl
        · rw [← hT]
          exact BF.walk_tokens_getLast hcwk
        · rw [← hT, ← hP]
          simp
  · simp only [DiscBot.find_negative_cycle] at hres
    have hg : BF.GoodState nodes edges
        (BF.relaxLoop (fun t => nodes.indexOf t) edges (nodes.length - 1)
          (BF.init F P nodes.length)) := by
      rw [BF.relaxLoop_eq_passIter]
      exact BF.passIter_good nodes edges hwf _ _
        (BF.goodState_init nodes edges)
    cases hfind : BF.findRelaxable (fun t => nodes.indexOf t) edges
        (BF.relaxLoop (fun t => nodes.indexOf t) edges (nodes.length - 1)
          (BF.init F P nodes.length)) with
    | none =>
      simp only [hfind, Option.some.injEq, Prod.mk.injEq] at hres
      exact absurd hres.1.symm hne
    | some e =>
      simp only [hfind] at hres
      have hemem : e ∈ edges := List.mem_of_find?_eq_some hfind
      cases hbw : BF.backWalkStrict
          (BF.relaxLoop (fun t => nodes.indexOf t) edges (nodes.length - 1)
            (BF.init F P nodes.length)).parent nodes.length
          (nodes.indexOf e.v) with
      | none => simp only [hbw] at hres; cases hres
      | some L =>
        simp only [hbw] at hres
        obtain ⟨lc, hcol, hcwk⟩ :=
          BF.detector_extract_spec nodes edges hwf _ hg e hemem L hbw
        rw [hcol] at hres
        simp only [Option.some.injEq, Prod.mk.injEq] at hres
        obtain ⟨hT, hP⟩ := hres
        refine ⟨nodes.getD L "", lc, hcwk, hT.symm, hP.symm, ?_, ?_, ?_⟩
        · rw [← hT]; rfl
        · rw [← hT]
          exact BF.walk_tokens_getLast hcwk
        · rw [← hT, ← hP]
          simp

/-- C10 witness: on the two-node negative cycle the discovery detector
returns `(["B", "A", "B"], [pool, pool])` — a closed, pool-backed walk one
token longer than its pool list. -/
theorem C10_result_is_closed_backed_walk_witness :
    BF.Wellformed ["A", "B"] wNeg ∧
    DiscBot.find_negative_cycle ["A", "B"] wNeg =
      some (["B", "A", "B"], [(), ()]) ∧
    (∃ t0 l, BF.Walk wNeg t0 t0 l ∧
      (["B", "A", "B"] : List Token) = t0 :: l.map (fun e2 => e2.v) ∧
      ([(), ()] : List Unit) = l.map (fun e2 => e2.pool) ∧
      (["B", "A", "B"] : List Token).head? = some t0 ∧
      (["B", "A", "B"] : List Token).getLast? = some t0 ∧
      (["B", "A", "B"] : List Token).length = ([(), ()] : List Unit).length + 1) := by
  have hwf : BF.Wellformed ["A", "B"] wNeg := by
    intro e2 he2
    simp only [wNeg, List.mem_cons, List.not_mem_nil, or_false] at he2
    rcases he2 with rfl | rfl
    · exact ⟨by decide, by decide⟩
    · exact ⟨by decide, by decide⟩
  have hres : DiscBot.find_negative_cycle ["A", "B"] wNeg =
      some (["B", "A", "B"], [(), ()]) := by decide
  exact ⟨hwf, hres, C10_result_is_closed_backed_walk ["A", "B"] wNeg hwf
    ["B", "A", "B"] [(), ()] (.inr hres) (by decide)⟩
